import Mathlib

/-
Verification of the `Messenger::MBuffer` multi-producer / multi-consumer ring
buffer (src/MBuffer.h) and of the consumer-side verifier of its demo harness
(src/MBuffer.cpp, src/MBufferStats.cpp).

The buffer is shallowly embedded: machine integers are modelled as `Int`
(the `std::atomic<long>` cursors and the `int64_t` map entries) and `Nat`
(the `size_t` ring indices), with the `long -> size_t` conversion made
explicit as reduction modulo `2 ^ 64`.  The two claim operations
`GetNextLocForProd` / `GetNextLocForCons` are CAS loops; they are embedded
as fuelled functions in which the scheduling of other threads is made
explicit: an `env : List (MBuffer -> MBuffer)` of interference steps is
applied, one per loop iteration, in the window between the reload of the
cursor and the CAS attempt (the windows in which the C++ code can be
preempted).  `env = []` is the uninterfered (single-threaded) execution.
`none` means the loop was still running when the fuel ran out.

On top of the single operations, the conventional concurrent use of the
buffer (claims, releases, reset, performed by workers that follow the
protocol of the demo harness) is modelled as a labelled step relation
`PStep` over buffer states extended with slot-ownership bookkeeping, and
safety invariants are proved for every reachable state.
-/

namespace Messenger

/-- Per-location status, from `MBuffer::Status`
(`READY_FOR_WRITE = 0, WRITING = 1, READY_FOR_READ = 2, READING = 3`). -/
inductive Status where
  | READY_FOR_WRITE
  | WRITING
  | READY_FOR_READ
  | READING
deriving DecidableEq, Repr

/-- The state of an `MBuffer<TRows, TColumns, T>` object, payload elements
omitted (no claim is about the payload array itself).  `rawBufSize` is the
template constant `TRows * TColumns`; `rows`/`columns` are the runtime
split `m_rows`/`m_columns`; `locStatus` and `locToAbsLocMap` are the two
arrays of length `rawBufSize`; the cursors `consLoc`/`prodLoc` are the two
`std::atomic<long>` counters. -/
structure MBuffer where
  rawBufSize : Nat
  rows : Nat
  columns : Nat
  stop : Bool
  consLoc : Int
  prodLoc : Int
  locStatus : List Status
  locToAbsLocMap : List Int
deriving DecidableEq, Repr

/-- `2 ^ 64`, the modulus of `size_t` arithmetic. -/
def SIZE_T_MOD : Nat := 2 ^ 64

/-- `(size_t)(-1)`, the out-of-range value returned by the claim operations
when the buffer is stopped. -/
def SENTINEL : Nat := 2 ^ 64 - 1

/-- The C++ conversion from `long` to `size_t` (reduction modulo `2 ^ 64`). -/
def asSizeT (a : Int) : Nat := (a % (SIZE_T_MOD : Int)).toNat

/-- `absLoc % m_rows` as computed by the C++ code: the signed `absLoc` is
converted to `size_t` and then reduced modulo `m_rows`. -/
def ringLoc (a : Int) (rows : Nat) : Nat := asSizeT a % rows

/-- Read `m_locStatus[i]` (out-of-range reads, which the code never
performs on well-formed states, default to `READY_FOR_WRITE`). -/
def statusAt (b : MBuffer) (i : Nat) : Status :=
  b.locStatus.getD i Status.READY_FOR_WRITE

/-- Read `m_locToAbsLocMap[i]` (out-of-range reads default to `-1`). -/
def mapAt (b : MBuffer) (i : Nat) : Int :=
  b.locToAbsLocMap.getD i (-1)

/-- Store into `m_locStatus[i]`. -/
def setStatus (b : MBuffer) (i : Nat) (st : Status) : MBuffer :=
  { b with locStatus := b.locStatus.set i st }

/-- `MBuffer::SetRowsColumns`: if `rows_ * columns_ != TRows * TColumns`
a `std::runtime_error` is thrown before any member is written, so the
object is returned unchanged together with the error; otherwise `m_rows`
and `m_columns` are updated.  Both sides of the comparison are `size_t`
values, so each product wraps modulo `2 ^ 64`. -/
def SetRowsColumns (b : MBuffer) (rows_ columns_ : Nat) : MBuffer × Option String :=
  if (rows_ * columns_) % SIZE_T_MOD ≠ b.rawBufSize % SIZE_T_MOD then
    (b, some "rows x columns != buffer size")
  else
    ({ b with rows := rows_, columns := columns_ }, none)

/-- The loop body of `MBuffer::ReleaseAllLocks`: for every `i < n` store
`READY_FOR_WRITE` into `m_locStatus[i]` and `-1` into
`m_locToAbsLocMap[i]`. -/
def releaseAux : Nat → List Status → List Int → List Status × List Int
  | 0, st, mp => (st, mp)
  | Nat.succ n, st, mp =>
      let p := releaseAux n st mp
      (p.1.set n Status.READY_FOR_WRITE, p.2.set n (-1))

/-- `MBuffer::ReleaseAllLocks`: release the first `m_rows` locations. -/
def ReleaseAllLocks (b : MBuffer) : MBuffer :=
  { b with
    locStatus := (releaseAux b.rows b.locStatus b.locToAbsLocMap).1,
    locToAbsLocMap := (releaseAux b.rows b.locStatus b.locToAbsLocMap).2 }

/-- `MBuffer::Stop`: set `m_stop` and release all locations. -/
def Stop (b : MBuffer) : MBuffer :=
  ReleaseAllLocks { b with stop := true }

/-- `MBuffer::Reset`: zero both cursors, release all locations, clear
`m_stop`. -/
def Reset (b : MBuffer) : MBuffer :=
  { ReleaseAllLocks { b with consLoc := 0, prodLoc := 0 } with stop := false }

/-- `MBuffer::SetLocReadyForCons`: producer release of a row. -/
def SetLocReadyForCons (b : MBuffer) (absloc : Nat) : MBuffer :=
  setStatus b (absloc % b.rows) Status.READY_FOR_READ

/-- `MBuffer::SetLocReadyForProd`: consumer release of a row. -/
def SetLocReadyForProd (b : MBuffer) (absloc : Nat) : MBuffer :=
  setStatus b (absloc % b.rows) Status.READY_FOR_WRITE

/-- The `MBuffer` constructor: `m_rows = TRows`, `m_columns = TColumns`,
`m_stop = false`, both cursors zero, then `ReleaseAllLocks()`.  The two
arrays before the release are modelled as filled with the defaults (the
constructor leaves them indeterminate; only the first `m_rows` entries,
which the release initialises, are ever read). -/
def MBuffer.init (R C : Nat) : MBuffer :=
  ReleaseAllLocks
    { rawBufSize := R * C
      rows := R
      columns := C
      stop := false
      consLoc := 0
      prodLoc := 0
      locStatus := List.replicate (R * C) Status.READY_FOR_WRITE
      locToAbsLocMap := List.replicate (R * C) (-1) }

/-- Apply the next interference step (the effect of the other threads in
the window where the current thread can be preempted), if any is left. -/
def interfere : List (MBuffer → MBuffer) → MBuffer → MBuffer × List (MBuffer → MBuffer)
  | [], s => (s, [])
  | f :: rest, s => (f s, rest)

/-- The epilogue of `MBuffer::GetNextLocForProd` after the CAS loop has
exited: set the out-parameter to `absLoc` (converted to `size_t`), return
the sentinel if stopped, otherwise record `m_locToAbsLocMap[loc] = absLoc`,
store `m_prodLoc = absLoc + 1` and return `loc`. -/
def finishProd (s : MBuffer) (absLoc : Int) (loc : Nat) : Nat × Nat × MBuffer :=
  if s.stop then (SENTINEL, asSizeT absLoc, s)
  else
    (loc, asSizeT absLoc,
      { s with
        locToAbsLocMap := s.locToAbsLocMap.set loc absLoc,
        prodLoc := absLoc + 1 })

/-- The CAS loop of `MBuffer::GetNextLocForProd`.  Each iteration: other
threads may run (`interfere`), then the CAS `READY_FOR_WRITE → WRITING` on
slot `loc` is attempted; on success the loop exits; on failure, if
`m_stop` is set the loop exits, otherwise the thread sleeps and reloads
`absLoc = m_prodLoc` and `loc = absLoc % m_rows` before the next
iteration. -/
def prodRun :
    Nat → List (MBuffer → MBuffer) → MBuffer → Int → Nat → Option (Nat × Nat × MBuffer)
  | 0, _, _, _, _ => none
  | Nat.succ fuel, env, s, absLoc, loc =>
      match interfere env s with
      | (s1, env1) =>
        if statusAt s1 loc = Status.READY_FOR_WRITE then
          some (finishProd (setStatus s1 loc Status.WRITING) absLoc loc)
        else if s1.stop then
          some (finishProd s1 absLoc loc)
        else
          prodRun fuel env1 s1 s1.prodLoc (ringLoc s1.prodLoc s1.rows)

/-- `MBuffer::GetNextLocForProd`: load `absLoc = m_prodLoc`, compute
`loc = absLoc % m_rows`, run the CAS loop.  The result is
`(return value, out-parameter absLoc_, final buffer state)`. -/
def GetNextLocForProd (fuel : Nat) (env : List (MBuffer → MBuffer)) (b : MBuffer) :
    Option (Nat × Nat × MBuffer) :=
  prodRun fuel env b b.prodLoc (ringLoc b.prodLoc b.rows)

/-- The epilogue of `MBuffer::GetNextLocForCons` after the outer loop has
exited: set the out-parameter, return the sentinel if stopped, otherwise
store `m_consLoc = absLoc + 1` and return `loc`. -/
def finishCons (s : MBuffer) (absLoc : Int) (loc : Nat) : Nat × Nat × MBuffer :=
  if s.stop then (SENTINEL, asSizeT absLoc, s)
  else (loc, asSizeT absLoc, { s with consLoc := absLoc + 1 })

/-- Program counter for `GetNextLocForCons`: at the top of the outer
`while (!m_stop)` loop, or at the top of the inner CAS loop. -/
inductive CPhase where
  | outer
  | inner
deriving DecidableEq, Repr

/-- The nested loops of `MBuffer::GetNextLocForCons`.

`outer`: test `m_stop`; if set, fall through to the epilogue; otherwise
enter the inner CAS loop.

`inner`: other threads may run, then the CAS `READY_FOR_READ → READING`
on slot `loc` is attempted.  On success the ABA check reads
`m_locToAbsLocMap[loc]`: if it equals `absLoc` the outer loop is exited
(epilogue); otherwise the slot status is stored back to `READY_FOR_READ`
and the outer loop continues with the same `absLoc` and `loc`.  On CAS
failure with `m_stop` set, the inner loop exits and the same ABA
check/store runs before the outer loop test.  On CAS failure with
`m_stop` clear, the thread sleeps and reloads `absLoc = m_consLoc`,
`loc = absLoc % m_rows`. -/
def consRun :
    Nat → List (MBuffer → MBuffer) → MBuffer → CPhase → Int → Nat →
      Option (Nat × Nat × MBuffer)
  | 0, _, _, _, _, _ => none
  | Nat.succ fuel, env, s, CPhase.outer, absLoc, loc =>
      if s.stop then some (finishCons s absLoc loc)
      else consRun fuel env s CPhase.inner absLoc loc
  | Nat.succ fuel, env, s, CPhase.inner, absLoc, loc =>
      match interfere env s with
      | (s1, env1) =>
        if statusAt s1 loc = Status.READY_FOR_READ then
          let s2 := setStatus s1 loc Status.READING
          if mapAt s2 loc = absLoc then some (finishCons s2 absLoc loc)
          else
            consRun fuel env1 (setStatus s2 loc Status.READY_FOR_READ) CPhase.outer absLoc loc
        else if s1.stop then
          if mapAt s1 loc = absLoc then some (finishCons s1 absLoc loc)
          else
            consRun fuel env1 (setStatus s1 loc Status.READY_FOR_READ) CPhase.outer absLoc loc
        else
          consRun fuel env1 s1 CPhase.inner s1.consLoc (ringLoc s1.consLoc s1.rows)

/-- `MBuffer::GetNextLocForCons`: load `absLoc = m_consLoc`, compute
`loc = absLoc % m_rows`, run the nested loops. -/
def GetNextLocForCons (fuel : Nat) (env : List (MBuffer → MBuffer)) (b : MBuffer) :
    Option (Nat × Nat × MBuffer) :=
  consRun fuel env b CPhase.outer b.consLoc (ringLoc b.consLoc b.rows)

/-- The variant of the consumer claim described by the specification text:
identical to `consRun` except that after rolling a stale claim back to
`READY_FOR_READ` it continues the outer loop with a freshly loaded
`m_consLoc` instead of the absolute index it was pinned to.  Used only to
compare the code against the specification wording. -/
def consRunFresh :
    Nat → List (MBuffer → MBuffer) → MBuffer → CPhase → Int → Nat →
      Option (Nat × Nat × MBuffer)
  | 0, _, _, _, _, _ => none
  | Nat.succ fuel, env, s, CPhase.outer, absLoc, loc =>
      if s.stop then some (finishCons s absLoc loc)
      else consRunFresh fuel env s CPhase.inner absLoc loc
  | Nat.succ fuel, env, s, CPhase.inner, absLoc, loc =>
      match interfere env s with
      | (s1, env1) =>
        if statusAt s1 loc = Status.READY_FOR_READ then
          let s2 := setStatus s1 loc Status.READING
          if mapAt s2 loc = absLoc then some (finishCons s2 absLoc loc)
          else
            let s3 := setStatus s2 loc Status.READY_FOR_READ
            consRunFresh fuel env1 s3 CPhase.outer s3.consLoc (ringLoc s3.consLoc s3.rows)
        else if s1.stop then
          if mapAt s1 loc = absLoc then some (finishCons s1 absLoc loc)
          else
            let s3 := setStatus s1 loc Status.READY_FOR_READ
            consRunFresh fuel env1 s3 CPhase.outer s3.consLoc (ringLoc s3.consLoc s3.rows)
        else
          consRunFresh fuel env1 s1 CPhase.inner s1.consLoc (ringLoc s1.consLoc s1.rows)

/-- The spec-variant consumer claim (see `consRunFresh`). -/
def GetNextLocForConsFresh (fuel : Nat) (env : List (MBuffer → MBuffer)) (b : MBuffer) :
    Option (Nat × Nat × MBuffer) :=
  consRunFresh fuel env b CPhase.outer b.consLoc (ringLoc b.consLoc b.rows)

/-- The verifier of the consumers demo loop (`Consumer::Run` in
src/MBuffer.cpp lines 357-382 and src/MBufferStats.cpp lines 341-367),
specialised to the `int64_t` payload whose `GetIndex()` is the value
itself.  For each column of a claimed row it checks the monotonicity of
its own consumption order and the slot identity
`absRow * columns + col = value`, and calls `exit(0)` on the first
violation.  `some code` means the process exits with status `code`
during this row; `none` means the whole row passes.  The first argument
is the number of columns still to process. -/
def verifyRowAux (absRow columns : Nat) (arr : List Int) :
    Nat → Nat → Int → Option Nat
  | 0, _, _ => none
  | Nat.succ rem, col, prevObj =>
      let curObj := arr.getD col 0
      if curObj < prevObj then some 0
      else if ((absRow * columns + col : Nat) : Int) ≠ curObj then some 0
      else verifyRowAux absRow columns arr rem (col + 1) curObj

/-- Run the consumer verifier over one claimed row: `absRow` is the
absolute row index returned by the claim, `columns` is
`m_buffer.BufElemSize()`, `arr` the row contents, `prevObj` the last value
this consumer saw.  Returns `some exitCode` if the process exits. -/
def consumerVerifyRow (absRow columns : Nat) (arr : List Int) (prevObj : Int) : Option Nat :=
  verifyRowAux absRow columns arr columns 0 prevObj

/-- Who currently owns a ring slot in the conventional worker protocol:
a producer that won the `READY_FOR_WRITE → WRITING` CAS, a consumer that
won `READY_FOR_READ → READING` with a matching map entry, or a consumer
that won the CAS pinned to a stale absolute index and is about to roll
back. -/
inductive Owner where
  | free
  | prodO
  | consO
  | staleO
deriving DecidableEq, Repr

/-- A buffer state extended with the slot-ownership bookkeeping of the
worker protocol. -/
structure PState where
  buf : MBuffer
  owner : Nat → Owner

/-- Pointwise owner update. -/
def updOwner (ow : Nat → Owner) (k : Nat) (o : Owner) : Nat → Owner :=
  fun j => if j = k then o else ow j

/-- The net effect of a successful, uninterfered
`GetNextLocForProd` call on the buffer: CAS the slot to `WRITING`,
record the map entry, advance `m_prodLoc`. -/
def prodClaimEff (b : MBuffer) : MBuffer :=
  { setStatus b (ringLoc b.prodLoc b.rows) Status.WRITING with
    locToAbsLocMap := b.locToAbsLocMap.set (ringLoc b.prodLoc b.rows) b.prodLoc,
    prodLoc := b.prodLoc + 1 }

/-- The net effect of a successful, uninterfered
`GetNextLocForCons` call on the buffer: CAS the slot to `READING`,
advance `m_consLoc`. -/
def consClaimEff (b : MBuffer) : MBuffer :=
  { setStatus b (ringLoc b.consLoc b.rows) Status.READING with
    consLoc := b.consLoc + 1 }

/-- Labels of the protocol steps (reset is labelled so that claims about
behaviour between resets can exclude it). -/
inductive Label where
  | prodClaim
  | prodRelease
  | consClaim
  | consRelease
  | staleClaim
  | staleRelease
  | reset
deriving DecidableEq, Repr

/-- One protocol step of the conventional concurrent use of the buffer:
the claim operations (successful executions of `GetNextLocForProd` /
`GetNextLocForCons`, including the stale-claim-and-rollback path of the
consumer), the release operations (`SetLocReadyForCons` /
`SetLocReadyForProd`, called by the owning worker on the row it holds),
and `Reset` (called single-threaded between runs, with no claims
outstanding).  The guards `prodLoc + 1 < 2 ^ 63` / `consLoc + 1 < 2 ^ 63`
express that the `long` cursor increment does not overflow (overflow is
undefined behaviour in the source). -/
inductive PStep : Label → PState → PState → Prop where
  | prodClaim {s : PState}
      (hstop : s.buf.stop = false)
      (hov : s.buf.prodLoc + 1 < 2 ^ 63)
      (hcas : statusAt s.buf (ringLoc s.buf.prodLoc s.buf.rows) = Status.READY_FOR_WRITE) :
      PStep Label.prodClaim s
        ⟨prodClaimEff s.buf, updOwner s.owner (ringLoc s.buf.prodLoc s.buf.rows) Owner.prodO⟩
  | consClaim {s : PState}
      (hstop : s.buf.stop = false)
      (hov : s.buf.consLoc + 1 < 2 ^ 63)
      (hcas : statusAt s.buf (ringLoc s.buf.consLoc s.buf.rows) = Status.READY_FOR_READ)
      (haba : mapAt s.buf (ringLoc s.buf.consLoc s.buf.rows) = s.buf.consLoc) :
      PStep Label.consClaim s
        ⟨consClaimEff s.buf, updOwner s.owner (ringLoc s.buf.consLoc s.buf.rows) Owner.consO⟩
  | staleClaim {s : PState} (k : Nat) (aStale : Int)
      (hstop : s.buf.stop = false)
      (hcas : statusAt s.buf k = Status.READY_FOR_READ)
      (haba : mapAt s.buf k ≠ aStale) :
      PStep Label.staleClaim s
        ⟨setStatus s.buf k Status.READING, updOwner s.owner k Owner.staleO⟩
  | staleRelease {s : PState} (k : Nat)
      (hown : s.owner k = Owner.staleO) :
      PStep Label.staleRelease s
        ⟨setStatus s.buf k Status.READY_FOR_READ, updOwner s.owner k Owner.free⟩
  | prodRelease {s : PState} (k : Nat)
      (hown : s.owner k = Owner.prodO) :
      PStep Label.prodRelease s
        ⟨SetLocReadyForCons s.buf k, updOwner s.owner k Owner.free⟩
  | consRelease {s : PState} (k : Nat)
      (hown : s.owner k = Owner.consO) :
      PStep Label.consRelease s
        ⟨SetLocReadyForProd s.buf k, updOwner s.owner k Owner.free⟩
  | reset {s : PState}
      (hquiet : ∀ k, s.owner k = Owner.free) :
      PStep Label.reset s ⟨Reset s.buf, s.owner⟩

/-- The protocol start state: a freshly constructed buffer configured as
`R` rows of `C` columns, no slot owned. -/
def startP (R C : Nat) : PState :=
  ⟨MBuffer.init R C, fun _ => Owner.free⟩

/-- States reachable by the protocol from the start state. -/
inductive Reach (R C : Nat) : PState → Prop where
  | init : Reach R C (startP R C)
  | step {s s' : PState} {lb : Label} : Reach R C s → PStep lb s s' → Reach R C s'

/-- The five legal transitions of the row state machine (spec section
4.1). -/
def legalTransition (x y : Status) : Prop :=
  (x = Status.READY_FOR_WRITE ∧ y = Status.WRITING) ∨
  (x = Status.WRITING ∧ y = Status.READY_FOR_READ) ∨
  (x = Status.READY_FOR_READ ∧ y = Status.READING) ∨
  (x = Status.READING ∧ y = Status.READY_FOR_WRITE) ∨
  (x = Status.READING ∧ y = Status.READY_FOR_READ)

/-- Well-formedness of a buffer state as established by the demo drivers:
a valid configuration (`0 < rows`, `rows` representable as `size_t`,
both arrays at least `rows` long) and cursors that are non-negative and
far from `long` overflow. -/
def Wf (s : MBuffer) : Prop :=
  0 < s.rows ∧ s.rows < 2 ^ 64 ∧
  s.rows ≤ s.locStatus.length ∧ s.rows ≤ s.locToAbsLocMap.length ∧
  0 ≤ s.prodLoc ∧ s.prodLoc < 2 ^ 63 ∧ 0 ≤ s.consLoc ∧ s.consLoc < 2 ^ 63

instance (s : MBuffer) : Decidable (Wf s) := by
  unfold Wf
  infer_instance

/-- An interference environment is admissible when each of its steps
(the combined effect of the other threads in one preemption window)
preserves well-formedness and does not reconfigure the row count
(reconfiguration is a single-threaded operation between runs). -/
def EnvOK (env : List (MBuffer → MBuffer)) : Prop :=
  ∀ f ∈ env, ∀ s, Wf s → Wf (f s) ∧ (f s).rows = s.rows

/-- Equality of every buffer component except the slot statuses. -/
def frameEq (x y : MBuffer) : Prop :=
  y.rawBufSize = x.rawBufSize ∧ y.rows = x.rows ∧ y.columns = x.columns ∧
  y.stop = x.stop ∧ y.consLoc = x.consLoc ∧ y.prodLoc = x.prodLoc ∧
  y.locToAbsLocMap = x.locToAbsLocMap

/-- Concrete well-formed buffer used to exercise the claim operations:
two rows of one column each, freshly reset. -/
def wBuf : MBuffer :=
  { rawBufSize := 2
    rows := 2
    columns := 1
    stop := false
    consLoc := 0
    prodLoc := 0
    locStatus := [Status.READY_FOR_WRITE, Status.READY_FOR_WRITE]
    locToAbsLocMap := [-1, -1] }

/-- State of `wBuf` after a successful producer claim of absolute 0. -/
def wBufP : MBuffer :=
  { wBuf with
    prodLoc := 1
    locStatus := [Status.WRITING, Status.READY_FOR_WRITE]
    locToAbsLocMap := [0, -1] }

/-- `wBuf` with absolute 0 produced and released, ready for a consumer
claim. -/
def wBufC : MBuffer :=
  { wBuf with
    prodLoc := 1
    locStatus := [Status.READY_FOR_READ, Status.READY_FOR_WRITE]
    locToAbsLocMap := [0, -1] }

/-- State of `wBufC` after a successful consumer claim of absolute 0. -/
def wBufC1 : MBuffer :=
  { wBufC with
    consLoc := 1
    locStatus := [Status.READING, Status.READY_FOR_WRITE] }

/-- `wBuf` stopped while slot 0 is writable: a producer claim observes
the stop flag after winning the CAS. -/
def wBufS : MBuffer :=
  { wBuf with stop := true }

/-- State of `wBufS` after the producer claim wins the CAS and then
returns the sentinel. -/
def wBufSP : MBuffer :=
  { wBufS with locStatus := [Status.WRITING, Status.READY_FOR_WRITE] }

/-- Start state of the ABA schedule used to compare the code against the
specification wording of the stale-claim retry: the consumer is about to
claim absolute 0 of a 2-row ring while the producer is still writing
it. -/
def cexB : MBuffer :=
  { rawBufSize := 2
    rows := 2
    columns := 1
    stop := false
    consLoc := 0
    prodLoc := 1
    locStatus := [Status.WRITING, Status.READY_FOR_WRITE]
    locToAbsLocMap := [0, -1] }

/-- Interference step of the ABA schedule: while the claiming consumer
is preempted between its load of `m_consLoc = 0` and its CAS, the
producer releases slot 0, a second consumer claims, reads and releases
absolute 0 (advancing `m_consLoc` to 1), and the producer writes and
releases absolute 1 into slot 1 and absolute 2 into slot 0.  Both slots
are then `READY_FOR_READ` with map entries 2 and 1. -/
def cexF : MBuffer → MBuffer :=
  fun _ =>
    { rawBufSize := 2
      rows := 2
      columns := 1
      stop := false
      consLoc := 1
      prodLoc := 3
      locStatus := [Status.READY_FOR_READ, Status.READY_FOR_READ]
      locToAbsLocMap := [2, 1] }

/-- The protocol state after the first producer claim of a 1-by-1
configuration, used to exercise the step relation. -/
def wStep1 : PState :=
  ⟨prodClaimEff (startP 1 1).buf,
    updOwner (startP 1 1).owner
      (ringLoc (startP 1 1).buf.prodLoc (startP 1 1).buf.rows) Owner.prodO⟩

/-- The inductive invariant of the worker protocol over `R` rows and `C`
columns.  An absolute index `a` is in flight when
`consLoc ≤ a < prodLoc`: it has been claimed by a producer and not yet
claimed by the consumer pinned to it.  Every in-flight index owns ring
slot `a mod rows` exclusively — `WRITING` while its producer holds it,
`READY_FOR_READ` once released, or transiently `READING` while a stale
consumer is about to roll it back — and the slot-to-abs map entry
witnesses it.  Ownership marks agree with the slot statuses, and
`READY_FOR_READ` appears only on in-flight slots. -/
structure Inv (R C : Nat) (s : PState) : Prop where
  rows_eq : s.buf.rows = R
  cols_eq : s.buf.columns = C
  raw_eq : s.buf.rawBufSize = R * C
  stLen : s.buf.locStatus.length = R * C
  mpLen : s.buf.locToAbsLocMap.length = R * C
  stop_false : s.buf.stop = false
  cons_nonneg : 0 ≤ s.buf.consLoc
  cons_le_prod : s.buf.consLoc ≤ s.buf.prodLoc
  prod_le : s.buf.prodLoc ≤ s.buf.consLoc + (R : Int)
  prod_lt : s.buf.prodLoc < 2 ^ 63
  inflight : ∀ a : Int, s.buf.consLoc ≤ a → a < s.buf.prodLoc →
      mapAt s.buf (ringLoc a R) = a ∧
      ((statusAt s.buf (ringLoc a R) = Status.WRITING ∧
          s.owner (ringLoc a R) = Owner.prodO) ∨
       (statusAt s.buf (ringLoc a R) = Status.READY_FOR_READ ∧
          s.owner (ringLoc a R) = Owner.free) ∨
       (statusAt s.buf (ringLoc a R) = Status.READING ∧
          s.owner (ringLoc a R) = Owner.staleO))
  prodO_st : ∀ k, s.owner k = Owner.prodO →
      statusAt s.buf k = Status.WRITING ∧
      ∃ a : Int, s.buf.consLoc ≤ a ∧ a < s.buf.prodLoc ∧ ringLoc a R = k
  consO_st : ∀ k, s.owner k = Owner.consO →
      statusAt s.buf k = Status.READING ∧ k < R
  staleO_st : ∀ k, s.owner k = Owner.staleO →
      statusAt s.buf k = Status.READING ∧
      ∃ a : Int, s.buf.consLoc ≤ a ∧ a < s.buf.prodLoc ∧ ringLoc a R = k
  rfr_inflight : ∀ k, statusAt s.buf k = Status.READY_FOR_READ →
      ∃ a : Int, s.buf.consLoc ≤ a ∧ a < s.buf.prodLoc ∧ ringLoc a R = k

/-! Basic lemmas about the embedded state. -/

theorem getD_set_self {α} (l : List α) (i : Nat) (v d : α) (h : i < l.length) :
    (l.set i v).getD i d = v := by
  simp [List.getD_eq_getElem?_getD, List.getElem?_set_self, h]

theorem getD_set_other {α} (l : List α) {i j : Nat} (v d : α) (h : j ≠ i) :
    (l.set i v).getD j d = l.getD j d := by
  simp [List.getD_eq_getElem?_getD, List.getElem?_set_ne (fun hc => h hc.symm)]

theorem getD_set_default {α} (l : List α) (i : Nat) (v : α) :
    (l.set i v).getD i v = v := by
  by_cases h : i < l.length
  · exact getD_set_self l i v v h
  · rw [List.set_eq_of_length_le (Nat.le_of_not_lt h)]
    simp [List.getD_eq_getElem?_getD, List.getElem?_eq_none (Nat.le_of_not_lt h)]

@[simp] theorem setStatus_rows (b : MBuffer) (i : Nat) (st : Status) :
    (setStatus b i st).rows = b.rows := rfl

@[simp] theorem setStatus_columns (b : MBuffer) (i : Nat) (st : Status) :
    (setStatus b i st).columns = b.columns := rfl

@[simp] theorem setStatus_rawBufSize (b : MBuffer) (i : Nat) (st : Status) :
    (setStatus b i st).rawBufSize = b.rawBufSize := rfl

@[simp] theorem setStatus_stop (b : MBuffer) (i : Nat) (st : Status) :
    (setStatus b i st).stop = b.stop := rfl

@[simp] theorem setStatus_consLoc (b : MBuffer) (i : Nat) (st : Status) :
    (setStatus b i st).consLoc = b.consLoc := rfl

@[simp] theorem setStatus_prodLoc (b : MBuffer) (i : Nat) (st : Status) :
    (setStatus b i st).prodLoc = b.prodLoc := rfl

@[simp] theorem setStatus_map (b : MBuffer) (i : Nat) (st : Status) :
    (setStatus b i st).locToAbsLocMap = b.locToAbsLocMap := rfl

@[simp] theorem setStatus_len (b : MBuffer) (i : Nat) (st : Status) :
    (setStatus b i st).locStatus.length = b.locStatus.length := by
  simp [setStatus]

@[simp] theorem mapAt_setStatus (b : MBuffer) (i : Nat) (st : Status) (j : Nat) :
    mapAt (setStatus b i st) j = mapAt b j := rfl

theorem statusAt_setStatus_self (b : MBuffer) (i : Nat) (st : Status)
    (h : i < b.locStatus.length) : statusAt (setStatus b i st) i = st :=
  getD_set_self _ _ _ _ h

theorem statusAt_setStatus_other (b : MBuffer) {i j : Nat} (st : Status) (h : j ≠ i) :
    statusAt (setStatus b i st) j = statusAt b j :=
  getD_set_other _ _ _ h

/-! `size_t` conversion lemmas. -/

theorem asSizeT_eq {a : Int} (h0 : 0 ≤ a) (h1 : a < 2 ^ 64) : asSizeT a = a.toNat := by
  unfold asSizeT
  rw [Int.emod_eq_of_lt h0 (by exact_mod_cast h1)]

theorem asSizeT_cast {a : Int} (h0 : 0 ≤ a) (h1 : a < 2 ^ 64) : ((asSizeT a : Nat) : Int) = a := by
  rw [asSizeT_eq h0 h1, Int.toNat_of_nonneg h0]

theorem ringLoc_eq {a : Int} (R : Nat) (h0 : 0 ≤ a) (h1 : a < 2 ^ 64) :
    ringLoc a R = a.toNat % R := by
  rw [ringLoc, asSizeT_eq h0 h1]

theorem ringLoc_lt (a : Int) {R : Nat} (hR : 0 < R) : ringLoc a R < R :=
  Nat.mod_lt _ hR

theorem mod_inj_of_lt {x y R : Nat} (hxy : x ≤ y) (h : y < x + R) (hm : x % R = y % R) :
    x = y := by
  have h1 : x ≡ y [MOD R] := hm
  have h2 : R ∣ y - x := (Nat.modEq_iff_dvd' hxy).mp h1
  have h3 : y - x = 0 := Nat.eq_zero_of_dvd_of_lt h2 (by omega)
  omega

/-- Two distinct absolute indices less than `rows` apart occupy distinct
ring slots. -/
theorem ringLoc_inj {a a' : Int} {R : Nat} (h0 : 0 ≤ a) (ha : a ≤ a')
    (hlt : a' < a + (R : Int)) (hb : a' < 2 ^ 64)
    (heq : ringLoc a R = ringLoc a' R) : a = a' := by
  have h0' : 0 ≤ a' := le_trans h0 ha
  have hab : a < 2 ^ 64 := lt_of_le_of_lt ha hb
  rw [ringLoc_eq R h0 hab, ringLoc_eq R h0' hb] at heq
  have hxy : a.toNat ≤ a'.toNat := by omega
  have hyx : a'.toNat < a.toNat + R := by omega
  have := mod_inj_of_lt hxy hyx heq
  omega

theorem ringLoc_add_rows {a : Int} {R : Nat} (h0 : 0 ≤ a) (h1 : a + (R : Int) < 2 ^ 64) :
    ringLoc (a + (R : Int)) R = ringLoc a R := by
  have h0' : 0 ≤ a + (R : Int) := by omega
  rw [ringLoc_eq R h0' h1, ringLoc_eq R h0 (by omega)]
  have : (a + (R : Int)).toNat = a.toNat + R := by omega
  rw [this, Nat.add_mod_right]

/-! `releaseAux` / `ReleaseAllLocks` lemmas. -/

theorem releaseAux_len_st (n : Nat) (st : List Status) (mp : List Int) :
    (releaseAux n st mp).1.length = st.length := by
  induction n with
  | zero => rfl
  | succ n ih => simp [releaseAux, ih]

theorem releaseAux_len_mp (n : Nat) (st : List Status) (mp : List Int) :
    (releaseAux n st mp).2.length = mp.length := by
  induction n with
  | zero => rfl
  | succ n ih => simp [releaseAux, ih]

theorem releaseAux_st_lt {n i : Nat} (st : List Status) (mp : List Int) (h : i < n) :
    (releaseAux n st mp).1.getD i Status.READY_FOR_WRITE = Status.READY_FOR_WRITE := by
  induction n with
  | zero => omega
  | succ n ih =>
      simp only [releaseAux]
      by_cases hin : i < n
      · rw [getD_set_other _ _ _ (by omega : i ≠ n)]
        exact ih hin
      · have hi : i = n := by omega
        subst hi
        exact getD_set_default _ _ _

theorem releaseAux_mp_lt {n i : Nat} (st : List Status) (mp : List Int) (h : i < n) :
    (releaseAux n st mp).2.getD i (-1) = -1 := by
  induction n with
  | zero => omega
  | succ n ih =>
      simp only [releaseAux]
      by_cases hin : i < n
      · rw [getD_set_other _ _ _ (by omega : i ≠ n)]
        exact ih hin
      · have hi : i = n := by omega
        subst hi
        exact getD_set_default _ _ _

theorem releaseAux_st_ge {n i : Nat} (st : List Status) (mp : List Int) (h : n ≤ i)
    (d : Status) : (releaseAux n st mp).1.getD i d = st.getD i d := by
  induction n with
  | zero => rfl
  | succ n ih =>
      simp only [releaseAux]
      rw [getD_set_other _ _ _ (by omega : i ≠ n)]
      exact ih (by omega)

theorem releaseAux_mp_ge {n i : Nat} (st : List Status) (mp : List Int) (h : n ≤ i)
    (d : Int) : (releaseAux n st mp).2.getD i d = mp.getD i d := by
  induction n with
  | zero => rfl
  | succ n ih =>
      simp only [releaseAux]
      rw [getD_set_other _ _ _ (by omega : i ≠ n)]
      exact ih (by omega)

@[simp] theorem releaseAll_rows (b : MBuffer) : (ReleaseAllLocks b).rows = b.rows := rfl

@[simp] theorem releaseAll_columns (b : MBuffer) : (ReleaseAllLocks b).columns = b.columns := rfl

@[simp] theorem releaseAll_rawBufSize (b : MBuffer) :
    (ReleaseAllLocks b).rawBufSize = b.rawBufSize := rfl

@[simp] theorem releaseAll_stop (b : MBuffer) : (ReleaseAllLocks b).stop = b.stop := rfl

@[simp] theorem releaseAll_consLoc (b : MBuffer) : (ReleaseAllLocks b).consLoc = b.consLoc := rfl

@[simp] theorem releaseAll_prodLoc (b : MBuffer) : (ReleaseAllLocks b).prodLoc = b.prodLoc := rfl

@[simp] theorem releaseAll_st_len (b : MBuffer) :
    (ReleaseAllLocks b).locStatus.length = b.locStatus.length :=
  releaseAux_len_st _ _ _

@[simp] theorem releaseAll_mp_len (b : MBuffer) :
    (ReleaseAllLocks b).locToAbsLocMap.length = b.locToAbsLocMap.length :=
  releaseAux_len_mp _ _ _

theorem statusAt_releaseAll_lt (b : MBuffer) {i : Nat} (h : i < b.rows) :
    statusAt (ReleaseAllLocks b) i = Status.READY_FOR_WRITE :=
  releaseAux_st_lt _ _ h

theorem mapAt_releaseAll_lt (b : MBuffer) {i : Nat} (h : i < b.rows) :
    mapAt (ReleaseAllLocks b) i = -1 :=
  releaseAux_mp_lt _ _ h

theorem statusAt_releaseAll_ge (b : MBuffer) {i : Nat} (h : b.rows ≤ i) :
    statusAt (ReleaseAllLocks b) i = statusAt b i :=
  releaseAux_st_ge _ _ h _

theorem mapAt_releaseAll_ge (b : MBuffer) {i : Nat} (h : b.rows ≤ i) :
    mapAt (ReleaseAllLocks b) i = mapAt b i :=
  releaseAux_mp_ge _ _ h _

/-! Well-formedness of buffer states and interference environments. -/

theorem envOK_nil : EnvOK [] := by
  intro f hf
  cases hf

theorem interfere_ok {env : List (MBuffer → MBuffer)} {s : MBuffer}
    (henv : EnvOK env) (hwf : Wf s) :
    Wf (interfere env s).1 ∧ (interfere env s).1.rows = s.rows ∧
      EnvOK (interfere env s).2 := by
  cases env with
  | nil => exact ⟨hwf, rfl, envOK_nil⟩
  | cons f rest =>
      have hf := henv f (List.mem_cons_self f rest) s hwf
      exact ⟨hf.1, hf.2, fun g hg => henv g (List.mem_cons_of_mem f hg)⟩

/-! Component lemmas for the epilogues of the two claim operations. -/

@[simp] theorem finishProd_out (s : MBuffer) (a : Int) (l : Nat) :
    (finishProd s a l).2.1 = asSizeT a := by
  by_cases h : s.stop <;> simp [finishProd, h]

theorem finishProd_fst_stop {s : MBuffer} (h : s.stop = true) (a : Int) (l : Nat) :
    (finishProd s a l).1 = SENTINEL := by
  simp [finishProd, h]

theorem finishProd_fst_go {s : MBuffer} (h : s.stop = false) (a : Int) (l : Nat) :
    (finishProd s a l).1 = l := by
  simp [finishProd, h]

theorem finishProd_state_stop {s : MBuffer} (h : s.stop = true) (a : Int) (l : Nat) :
    (finishProd s a l).2.2 = s := by
  simp [finishProd, h]

@[simp] theorem finishProd_rows (s : MBuffer) (a : Int) (l : Nat) :
    (finishProd s a l).2.2.rows = s.rows := by
  by_cases h : s.stop <;> simp [finishProd, h]

@[simp] theorem finishProd_stop (s : MBuffer) (a : Int) (l : Nat) :
    (finishProd s a l).2.2.stop = s.stop := by
  by_cases h : s.stop <;> simp [finishProd, h]

@[simp] theorem finishProd_consLoc (s : MBuffer) (a : Int) (l : Nat) :
    (finishProd s a l).2.2.consLoc = s.consLoc := by
  by_cases h : s.stop <;> simp [finishProd, h]

@[simp] theorem finishProd_locStatus (s : MBuffer) (a : Int) (l : Nat) :
    (finishProd s a l).2.2.locStatus = s.locStatus := by
  by_cases h : s.stop <;> simp [finishProd, h]

theorem finishProd_prodLoc_go {s : MBuffer} (h : s.stop = false) (a : Int) (l : Nat) :
    (finishProd s a l).2.2.prodLoc = a + 1 := by
  simp [finishProd, h]

theorem finishProd_map_go {s : MBuffer} (h : s.stop = false) (a : Int) (l : Nat) :
    (finishProd s a l).2.2.locToAbsLocMap = s.locToAbsLocMap.set l a := by
  simp [finishProd, h]

theorem finishProd_prodLoc_stop {s : MBuffer} (h : s.stop = true) (a : Int) (l : Nat) :
    (finishProd s a l).2.2.prodLoc = s.prodLoc := by
  simp [finishProd, h]

theorem finishProd_map_stop {s : MBuffer} (h : s.stop = true) (a : Int) (l : Nat) :
    (finishProd s a l).2.2.locToAbsLocMap = s.locToAbsLocMap := by
  simp [finishProd, h]

@[simp] theorem finishCons_out (s : MBuffer) (a : Int) (l : Nat) :
    (finishCons s a l).2.1 = asSizeT a := by
  by_cases h : s.stop <;> simp [finishCons, h]

theorem finishCons_fst_stop {s : MBuffer} (h : s.stop = true) (a : Int) (l : Nat) :
    (finishCons s a l).1 = SENTINEL := by
  simp [finishCons, h]

theorem finishCons_fst_go {s : MBuffer} (h : s.stop = false) (a : Int) (l : Nat) :
    (finishCons s a l).1 = l := by
  simp [finishCons, h]

theorem finishCons_state_stop {s : MBuffer} (h : s.stop = true) (a : Int) (l : Nat) :
    (finishCons s a l).2.2 = s := by
  simp [finishCons, h]

@[simp] theorem finishCons_rows (s : MBuffer) (a : Int) (l : Nat) :
    (finishCons s a l).2.2.rows = s.rows := by
  by_cases h : s.stop <;> simp [finishCons, h]

@[simp] theorem finishCons_stop (s : MBuffer) (a : Int) (l : Nat) :
    (finishCons s a l).2.2.stop = s.stop := by
  by_cases h : s.stop <;> simp [finishCons, h]

@[simp] theorem finishCons_prodLoc (s : MBuffer) (a : Int) (l : Nat) :
    (finishCons s a l).2.2.prodLoc = s.prodLoc := by
  by_cases h : s.stop <;> simp [finishCons, h]

@[simp] theorem finishCons_locStatus (s : MBuffer) (a : Int) (l : Nat) :
    (finishCons s a l).2.2.locStatus = s.locStatus := by
  by_cases h : s.stop <;> simp [finishCons, h]

@[simp] theorem finishCons_map (s : MBuffer) (a : Int) (l : Nat) :
    (finishCons s a l).2.2.locToAbsLocMap = s.locToAbsLocMap := by
  by_cases h : s.stop <;> simp [finishCons, h]

theorem finishCons_consLoc_go {s : MBuffer} (h : s.stop = false) (a : Int) (l : Nat) :
    (finishCons s a l).2.2.consLoc = a + 1 := by
  simp [finishCons, h]

theorem finishCons_consLoc_stop {s : MBuffer} (h : s.stop = true) (a : Int) (l : Nat) :
    (finishCons s a l).2.2.consLoc = s.consLoc := by
  simp [finishCons, h]

/-! The producer claim loop. -/

/-- Characterisation of a completed `GetNextLocForProd` loop under an
admissible interference environment: the final state keeps the row
count; if the final stop check reads `true` the sentinel is returned;
otherwise the returned ring index is in range and equals the returned
absolute index modulo `rows`, the slot-to-abs map entry at it equals the
returned absolute index, and `m_prodLoc` was advanced to one past it. -/
theorem prodRun_spec {R : Nat} (fuel : Nat) :
    ∀ (env : List (MBuffer → MBuffer)) (s : MBuffer) (a : Int) (l : Nat)
      (ret aOut : Nat) (s' : MBuffer),
      EnvOK env → Wf s → s.rows = R → 0 ≤ a → a < 2 ^ 63 → l = ringLoc a R →
      prodRun fuel env s a l = some (ret, aOut, s') →
      s'.rows = R ∧
      (s'.stop = true → ret = SENTINEL) ∧
      (s'.stop = false →
        ret < R ∧ ret = aOut % R ∧ mapAt s' ret = (aOut : Int) ∧
          s'.prodLoc = (aOut : Int) + 1) := by
  induction fuel with
  | zero =>
      intro env s a l ret aOut s' _ _ _ _ _ _ hrun
      simp [prodRun] at hrun
  | succ fuel ih =>
      intro env s a l ret aOut s' henv hwf hrows ha0 ha1 hl hrun
      rcases hi : interfere env s with ⟨s1, env1⟩
      obtain ⟨hwf1, hrows1, henv1⟩ := interfere_ok henv hwf
      rw [hi] at hwf1 hrows1 henv1
      dsimp only at hwf1 hrows1 henv1
      rw [prodRun, hi] at hrun
      dsimp only at hrun
      have ha64 : a < 2 ^ 64 := lt_trans ha1 (by norm_num)
      have hR0 : 0 < R := hrows ▸ hwf.1
      by_cases hcas : statusAt s1 l = Status.READY_FOR_WRITE
      · rw [if_pos hcas] at hrun
        set s2 := setStatus s1 l Status.WRITING with hs2
        have hret : ret = (finishProd s2 a l).1 := by rw [Option.some.inj hrun]
        have hout : aOut = (finishProd s2 a l).2.1 := by rw [Option.some.inj hrun]
        have hst : s' = (finishProd s2 a l).2.2 := by rw [Option.some.inj hrun]
        have hs2stop : s2.stop = s1.stop := by rw [hs2, setStatus_stop]
        by_cases hstop : s1.stop
        · refine ⟨?_, fun _ => ?_, fun hc => ?_⟩
          · rw [hst, finishProd_rows, hs2, setStatus_rows, hrows1, hrows]
          · rw [hret, finishProd_fst_stop (hs2stop.trans (by rw [hstop]))]
          · rw [hst, finishProd_stop, hs2stop] at hc
            rw [hc] at hstop
            cases hstop
        · have hstop' : s2.stop = false := hs2stop.trans (Bool.of_not_eq_true hstop)
          have hlR : l < R := hl ▸ ringLoc_lt a hR0
          have hcast : ((asSizeT a : Nat) : Int) = a := asSizeT_cast ha0 ha64
          refine ⟨?_, fun hc => ?_, fun _ => ⟨?_, ?_, ?_, ?_⟩⟩
          · rw [hst, finishProd_rows, hs2, setStatus_rows, hrows1, hrows]
          · rw [hst, finishProd_stop, hstop'] at hc
            cases hc
          · rw [hret, finishProd_fst_go hstop']
            exact hlR
          · rw [hret, finishProd_fst_go hstop', hout, finishProd_out, hl, ringLoc]
          · rw [hret, finishProd_fst_go hstop', hout, finishProd_out, hcast, hst]
            show (finishProd s2 a l).2.2.locToAbsLocMap.getD l (-1) = a
            rw [finishProd_map_go hstop']
            have hlen : l < s2.locToAbsLocMap.length := by
              rw [hs2, setStatus_map]
              refine lt_of_lt_of_le hlR ?_
              rw [← hrows, ← hrows1]
              exact hwf1.2.2.2.1
            exact getD_set_self _ _ _ _ hlen
          · rw [hout, finishProd_out, hcast, hst, finishProd_prodLoc_go hstop']
      · rw [if_neg hcas] at hrun
        by_cases hstop : s1.stop
        · rw [if_pos hstop] at hrun
          have hret : ret = (finishProd s1 a l).1 := by rw [Option.some.inj hrun]
          have hst : s' = (finishProd s1 a l).2.2 := by rw [Option.some.inj hrun]
          refine ⟨?_, fun _ => ?_, fun hc => ?_⟩
          · rw [hst, finishProd_rows, hrows1, hrows]
          · rw [hret, finishProd_fst_stop hstop]
          · rw [hst, finishProd_stop] at hc
            rw [hc] at hstop
            cases hstop
        · rw [if_neg hstop] at hrun
          exact ih env1 s1 s1.prodLoc (ringLoc s1.prodLoc s1.rows) ret aOut s'
            henv1 hwf1 (hrows1.trans hrows) hwf1.2.2.2.2.1 hwf1.2.2.2.2.2.1
            (by rw [hrows1, hrows]) hrun

theorem wf_setStatus {b : MBuffer} (hwf : Wf b) (i : Nat) (st : Status) :
    Wf (setStatus b i st) := by
  unfold Wf at hwf ⊢
  simpa [setStatus] using hwf

/-! The consumer claim loops. -/

/-- Characterisation of a completed `GetNextLocForCons` under an
admissible interference environment: the final state keeps the row
count; if the final stop check reads `true` the sentinel is returned;
otherwise the returned ring index is in range and equals the returned
absolute index modulo `rows`, the slot-to-abs map entry at it (in the
returned state) equals the returned absolute index — the ABA check —
and `m_consLoc` was advanced to one past it. -/
theorem consRun_spec {R : Nat} (fuel : Nat) :
    ∀ (env : List (MBuffer → MBuffer)) (s : MBuffer) (ph : CPhase) (a : Int) (l : Nat)
      (ret aOut : Nat) (s' : MBuffer),
      EnvOK env → Wf s → s.rows = R → 0 ≤ a → a < 2 ^ 63 → l = ringLoc a R →
      consRun fuel env s ph a l = some (ret, aOut, s') →
      s'.rows = R ∧
      (s'.stop = true → ret = SENTINEL) ∧
      (s'.stop = false →
        ret < R ∧ ret = aOut % R ∧ mapAt s' ret = (aOut : Int) ∧
          s'.consLoc = (aOut : Int) + 1) := by
  induction fuel with
  | zero =>
      intro env s ph a l ret aOut s' _ _ _ _ _ _ hrun
      cases ph <;> simp [consRun] at hrun
  | succ fuel ih =>
      intro env s ph a l ret aOut s' henv hwf hrows ha0 ha1 hl hrun
      have ha64 : a < 2 ^ 64 := lt_trans ha1 (by norm_num)
      have hR0 : 0 < R := hrows ▸ hwf.1
      cases ph with
      | outer =>
          rw [consRun] at hrun
          by_cases hstop : s.stop
          · rw [if_pos hstop] at hrun
            have hret : ret = (finishCons s a l).1 := by rw [Option.some.inj hrun]
            have hst : s' = (finishCons s a l).2.2 := by rw [Option.some.inj hrun]
            refine ⟨?_, fun _ => ?_, fun hc => ?_⟩
            · rw [hst, finishCons_rows, hrows]
            · rw [hret, finishCons_fst_stop hstop]
            · rw [hst, finishCons_stop] at hc
              rw [hc] at hstop
              cases hstop
          · rw [if_neg hstop] at hrun
            exact ih env s CPhase.inner a l ret aOut s' henv hwf hrows ha0 ha1 hl hrun
      | inner =>
          rcases hi : interfere env s with ⟨s1, env1⟩
          obtain ⟨hwf1, hrows1, henv1⟩ := interfere_ok henv hwf
          rw [hi] at hwf1 hrows1 henv1
          dsimp only at hwf1 hrows1 henv1
          rw [consRun, hi] at hrun
          dsimp only at hrun
          have hmpLen : R ≤ s1.locToAbsLocMap.length := by
            rw [← hrows, ← hrows1]
            exact hwf1.2.2.2.1
          by_cases hcas : statusAt s1 l = Status.READY_FOR_READ
          · rw [if_pos hcas] at hrun
            by_cases hmap : mapAt (setStatus s1 l Status.READING) l = a
            · rw [if_pos hmap] at hrun
              set s2 := setStatus s1 l Status.READING with hs2
              have hret : ret = (finishCons s2 a l).1 := by rw [Option.some.inj hrun]
              have hout : aOut = (finishCons s2 a l).2.1 := by rw [Option.some.inj hrun]
              have hst : s' = (finishCons s2 a l).2.2 := by rw [Option.some.inj hrun]
              have hs2stop : s2.stop = s1.stop := by rw [hs2, setStatus_stop]
              have hs2rows : s2.rows = R := by rw [hs2, setStatus_rows, hrows1, hrows]
              by_cases hstop : s1.stop
              · refine ⟨?_, fun _ => ?_, fun hc => ?_⟩
                · rw [hst, finishCons_rows, hs2rows]
                · rw [hret, finishCons_fst_stop (hs2stop.trans (by rw [hstop]))]
                · rw [hst, finishCons_stop, hs2stop] at hc
                  rw [hc] at hstop
                  cases hstop
              · have hstop' : s2.stop = false := hs2stop.trans (Bool.of_not_eq_true hstop)
                have hlR : l < R := hl ▸ ringLoc_lt a hR0
                have hcast : ((asSizeT a : Nat) : Int) = a := asSizeT_cast ha0 ha64
                refine ⟨?_, fun hc => ?_, fun _ => ⟨?_, ?_, ?_, ?_⟩⟩
                · rw [hst, finishCons_rows, hs2rows]
                · rw [hst, finishCons_stop, hstop'] at hc
                  cases hc
                · rw [hret, finishCons_fst_go hstop']
                  exact hlR
                · rw [hret, finishCons_fst_go hstop', hout, finishCons_out, hl, ringLoc]
                · rw [hret, finishCons_fst_go hstop', hout, finishCons_out, hcast, hst]
                  show mapAt (finishCons s2 a l).2.2 l = a
                  rw [show mapAt (finishCons s2 a l).2.2 l =
                      mapAt s2 l from by rw [mapAt, finishCons_map]; rfl]
                  exact hmap
                · rw [hout, finishCons_out, hcast, hst, finishCons_consLoc_go hstop']
            · rw [if_neg hmap] at hrun
              refine ih env1 (setStatus (setStatus s1 l Status.READING) l Status.READY_FOR_READ)
                CPhase.outer a l ret aOut s' henv1
                (wf_setStatus (wf_setStatus hwf1 _ _) _ _) ?_ ha0 ha1 hl hrun
              rw [setStatus_rows, setStatus_rows, hrows1, hrows]
          · rw [if_neg hcas] at hrun
            by_cases hstop : s1.stop
            · rw [if_pos hstop] at hrun
              by_cases hmap : mapAt s1 l = a
              · rw [if_pos hmap] at hrun
                have hret : ret = (finishCons s1 a l).1 := by rw [Option.some.inj hrun]
                have hst : s' = (finishCons s1 a l).2.2 := by rw [Option.some.inj hrun]
                refine ⟨?_, fun _ => ?_, fun hc => ?_⟩
                · rw [hst, finishCons_rows, hrows1, hrows]
                · rw [hret, finishCons_fst_stop hstop]
                · rw [hst, finishCons_stop] at hc
                  rw [hc] at hstop
                  cases hstop
              · rw [if_neg hmap] at hrun
                refine ih env1 (setStatus s1 l Status.READY_FOR_READ)
                  CPhase.outer a l ret aOut s' henv1 (wf_setStatus hwf1 _ _) ?_ ha0 ha1 hl hrun
                rw [setStatus_rows, hrows1, hrows]
            · rw [if_neg hstop] at hrun
              exact ih env1 s1 CPhase.inner s1.consLoc (ringLoc s1.consLoc s1.rows) ret aOut s'
                henv1 hwf1 (hrows1.trans hrows) hwf1.2.2.2.2.2.2.1 hwf1.2.2.2.2.2.2.2
                (by rw [hrows1, hrows]) hrun

/-! Uninterfered (single-threaded) executions of the claim loops. -/

theorem frameEq_refl (x : MBuffer) : frameEq x x :=
  ⟨rfl, rfl, rfl, rfl, rfl, rfl, rfl⟩

theorem frameEq_trans {x y z : MBuffer} (h1 : frameEq x y) (h2 : frameEq y z) :
    frameEq x z := by
  obtain ⟨a1, a2, a3, a4, a5, a6, a7⟩ := h1
  obtain ⟨b1, b2, b3, b4, b5, b6, b7⟩ := h2
  exact ⟨b1.trans a1, b2.trans a2, b3.trans a3, b4.trans a4, b5.trans a5,
    b6.trans a6, b7.trans a7⟩

theorem frameEq_setStatus (x : MBuffer) (i : Nat) (st : Status) :
    frameEq x (setStatus x i st) :=
  ⟨rfl, rfl, rfl, rfl, rfl, rfl, rfl⟩

/-- An uninterfered `GetNextLocForProd` only ever works with the
initially loaded `m_prodLoc`, and when it exits on the stop flag it
returns the sentinel having changed nothing but slot statuses. -/
theorem prodRun_nil_spec (fuel : Nat) :
    ∀ (s : MBuffer) (a : Int) (l : Nat) (ret aOut : Nat) (s' : MBuffer),
      a = s.prodLoc → prodRun fuel [] s a l = some (ret, aOut, s') →
      aOut = asSizeT s.prodLoc ∧
      (s'.stop = true → ret = SENTINEL ∧ frameEq s s') := by
  induction fuel with
  | zero =>
      intro s a l ret aOut s' _ hrun
      simp [prodRun] at hrun
  | succ fuel ih =>
      intro s a l ret aOut s' ha hrun
      rw [prodRun, show interfere [] s = (s, ([] : List (MBuffer → MBuffer))) from rfl] at hrun
      dsimp only at hrun
      by_cases hcas : statusAt s l = Status.READY_FOR_WRITE
      · rw [if_pos hcas] at hrun
        set s2 := setStatus s l Status.WRITING with hs2
        have hout : aOut = (finishProd s2 a l).2.1 := by rw [Option.some.inj hrun]
        have hret : ret = (finishProd s2 a l).1 := by rw [Option.some.inj hrun]
        have hst : s' = (finishProd s2 a l).2.2 := by rw [Option.some.inj hrun]
        have hs2stop : s2.stop = s.stop := by rw [hs2, setStatus_stop]
        refine ⟨by rw [hout, finishProd_out, ha], fun hc => ?_⟩
        have hstop2 : s2.stop = true := by
          rw [hst, finishProd_stop] at hc
          exact hc
        refine ⟨by rw [hret, finishProd_fst_stop hstop2], ?_⟩
        rw [hst, finishProd_state_stop hstop2]
        exact frameEq_setStatus s l Status.WRITING
      · rw [if_neg hcas] at hrun
        by_cases hstop : s.stop
        · rw [if_pos hstop] at hrun
          have hout : aOut = (finishProd s a l).2.1 := by rw [Option.some.inj hrun]
          have hret : ret = (finishProd s a l).1 := by rw [Option.some.inj hrun]
          have hst : s' = (finishProd s a l).2.2 := by rw [Option.some.inj hrun]
          refine ⟨by rw [hout, finishProd_out, ha], fun _ => ?_⟩
          refine ⟨by rw [hret, finishProd_fst_stop hstop], ?_⟩
          rw [hst, finishProd_state_stop hstop]
          exact frameEq_refl s
        · rw [if_neg hstop] at hrun
          exact ih s s.prodLoc (ringLoc s.prodLoc s.rows) ret aOut s' rfl hrun

/-- An uninterfered `GetNextLocForCons` only ever works with the
initially loaded `m_consLoc`, and when it exits on the stop flag it
returns the sentinel having changed nothing but slot statuses. -/
theorem consRun_nil_spec (fuel : Nat) :
    ∀ (s : MBuffer) (ph : CPhase) (a : Int) (l : Nat) (ret aOut : Nat) (s' : MBuffer),
      a = s.consLoc → consRun fuel [] s ph a l = some (ret, aOut, s') →
      aOut = asSizeT s.consLoc ∧
      (s'.stop = true → ret = SENTINEL ∧ frameEq s s') := by
  induction fuel with
  | zero =>
      intro s ph a l ret aOut s' _ hrun
      cases ph <;> simp [consRun] at hrun
  | succ fuel ih =>
      intro s ph a l ret aOut s' ha hrun
      cases ph with
      | outer =>
          rw [consRun] at hrun
          by_cases hstop : s.stop
          · rw [if_pos hstop] at hrun
            have hout : aOut = (finishCons s a l).2.1 := by rw [Option.some.inj hrun]
            have hret : ret = (finishCons s a l).1 := by rw [Option.some.inj hrun]
            have hst : s' = (finishCons s a l).2.2 := by rw [Option.some.inj hrun]
            refine ⟨by rw [hout, finishCons_out, ha], fun _ => ?_⟩
            refine ⟨by rw [hret, finishCons_fst_stop hstop], ?_⟩
            rw [hst, finishCons_state_stop hstop]
            exact frameEq_refl s
          · rw [if_neg hstop] at hrun
            exact ih s CPhase.inner a l ret aOut s' ha hrun
      | inner =>
          rw [consRun, show interfere [] s = (s, ([] : List (MBuffer → MBuffer))) from rfl]
            at hrun
          dsimp only at hrun
          by_cases hcas : statusAt s l = Status.READY_FOR_READ
          · rw [if_pos hcas] at hrun
            by_cases hmap : mapAt (setStatus s l Status.READING) l = a
            · rw [if_pos hmap] at hrun
              set s2 := setStatus s l Status.READING with hs2
              have hout : aOut = (finishCons s2 a l).2.1 := by rw [Option.some.inj hrun]
              have hret : ret = (finishCons s2 a l).1 := by rw [Option.some.inj hrun]
              have hst : s' = (finishCons s2 a l).2.2 := by rw [Option.some.inj hrun]
              refine ⟨by rw [hout, finishCons_out, ha], fun hc => ?_⟩
              have hstop2 : s2.stop = true := by
                rw [hst, finishCons_stop] at hc
                exact hc
              refine ⟨by rw [hret, finishCons_fst_stop hstop2], ?_⟩
              rw [hst, finishCons_state_stop hstop2]
              exact frameEq_setStatus s l Status.READING
            · rw [if_neg hmap] at hrun
              have h3 := ih (setStatus (setStatus s l Status.READING) l Status.READY_FOR_READ)
                CPhase.outer a l ret aOut s' (by rw [setStatus_consLoc, setStatus_consLoc, ha])
                hrun
              refine ⟨h3.1, fun hc => ⟨(h3.2 hc).1, ?_⟩⟩
              exact frameEq_trans
                (frameEq_trans (frameEq_setStatus s l Status.READING)
                  (frameEq_setStatus _ l Status.READY_FOR_READ)) (h3.2 hc).2
          · rw [if_neg hcas] at hrun
            by_cases hstop : s.stop
            · rw [if_pos hstop] at hrun
              by_cases hmap : mapAt s l = a
              · rw [if_pos hmap] at hrun
                have hout : aOut = (finishCons s a l).2.1 := by rw [Option.some.inj hrun]
                have hret : ret = (finishCons s a l).1 := by rw [Option.some.inj hrun]
                have hst : s' = (finishCons s a l).2.2 := by rw [Option.some.inj hrun]
                refine ⟨by rw [hout, finishCons_out, ha], fun _ => ?_⟩
                refine ⟨by rw [hret, finishCons_fst_stop hstop], ?_⟩
                rw [hst, finishCons_state_stop hstop]
                exact frameEq_refl s
              · rw [if_neg hmap] at hrun
                have h3 := ih (setStatus s l Status.READY_FOR_READ)
                  CPhase.outer a l ret aOut s' (by rw [setStatus_consLoc, ha]) hrun
                refine ⟨h3.1, fun hc => ⟨(h3.2 hc).1, ?_⟩⟩
                exact frameEq_trans (frameEq_setStatus s l Status.READY_FOR_READ) (h3.2 hc).2
            · rw [if_neg hstop] at hrun
              exact ih s CPhase.inner s.consLoc (ringLoc s.consLoc s.rows) ret aOut s' rfl hrun

/-! Structure and list equality helpers. -/

theorem mbufferEq {x y : MBuffer}
    (h1 : x.rawBufSize = y.rawBufSize) (h2 : x.rows = y.rows) (h3 : x.columns = y.columns)
    (h4 : x.stop = y.stop) (h5 : x.consLoc = y.consLoc) (h6 : x.prodLoc = y.prodLoc)
    (h7 : x.locStatus = y.locStatus) (h8 : x.locToAbsLocMap = y.locToAbsLocMap) :
    x = y := by
  cases x
  cases y
  simp_all

theorem stop_update_self {x : MBuffer} (h : x.stop = true) :
    { x with stop := true } = x := by
  cases x
  simp_all

theorem getElem_eq_getD {α} (l : List α) {i : Nat} (d : α) (h : i < l.length) :
    l[i] = l.getD i d :=
  (List.getD_eq_getElem l d h).symm

theorem releaseAll_idem (b : MBuffer) :
    ReleaseAllLocks (ReleaseAllLocks b) = ReleaseAllLocks b := by
  refine mbufferEq rfl rfl rfl rfl rfl rfl ?_ ?_
  · show (releaseAux b.rows (ReleaseAllLocks b).locStatus
        (ReleaseAllLocks b).locToAbsLocMap).1 = (ReleaseAllLocks b).locStatus
    apply List.ext_getElem
    · rw [releaseAux_len_st]
    · intro i h1 h2
      rw [getElem_eq_getD _ Status.READY_FOR_WRITE h1,
        getElem_eq_getD _ Status.READY_FOR_WRITE h2]
      by_cases hin : i < b.rows
      · rw [releaseAux_st_lt _ _ hin]
        exact (releaseAux_st_lt _ _ hin).symm
      · exact releaseAux_st_ge _ _ (Nat.le_of_not_lt hin) _
  · show (releaseAux b.rows (ReleaseAllLocks b).locStatus
        (ReleaseAllLocks b).locToAbsLocMap).2 = (ReleaseAllLocks b).locToAbsLocMap
    apply List.ext_getElem
    · rw [releaseAux_len_mp]
    · intro i h1 h2
      rw [getElem_eq_getD _ (-1) h1, getElem_eq_getD _ (-1) h2]
      by_cases hin : i < b.rows
      · rw [releaseAux_mp_lt _ _ hin]
        exact (releaseAux_mp_lt _ _ hin).symm
      · exact releaseAux_mp_ge _ _ (Nat.le_of_not_lt hin) _

/-! Claim theorems. -/

/-- C2: every producer claim that completes with the stop flag clear
returns a pair `(k, a)` with `k = a mod rows` in range, records
`slot_to_abs[k] = a` and stores `prodLoc = a + 1`; the claim starts
from the loaded `m_prodLoc`: in the uninterfered execution the returned
absolute index is exactly the `m_prodLoc` loaded at entry. -/
theorem prodClaim_spec (fuel : Nat) (env : List (MBuffer → MBuffer)) (b : MBuffer)
    (ret aOut : Nat) (s' : MBuffer) (henv : EnvOK env) (hwf : Wf b)
    (hrun : GetNextLocForProd fuel env b = some (ret, aOut, s')) :
    (s'.stop = false →
      ret = aOut % b.rows ∧ ret < b.rows ∧ mapAt s' ret = (aOut : Int) ∧
        s'.prodLoc = (aOut : Int) + 1) ∧
    (env = [] → aOut = asSizeT b.prodLoc) := by
  simp only [GetNextLocForProd] at hrun
  constructor
  · intro hstop
    have h := prodRun_spec (R := b.rows) fuel env b b.prodLoc (ringLoc b.prodLoc b.rows)
      ret aOut s' henv hwf rfl hwf.2.2.2.2.1 hwf.2.2.2.2.2.1 rfl hrun
    obtain ⟨c1, c2, c3, c4⟩ := h.2.2 hstop
    exact ⟨c2, c1, c3, c4⟩
  · rintro rfl
    exact (prodRun_nil_spec fuel b b.prodLoc (ringLoc b.prodLoc b.rows) ret aOut s' rfl hrun).1

/-- Witness for C2: on a fresh 2-by-1 buffer the producer claim returns
ring index 0 for absolute index 0, records the map entry and advances
the cursor. -/
theorem prodClaim_spec_witness :
    ((wBufP.stop = false →
      0 = 0 % wBuf.rows ∧ 0 < wBuf.rows ∧ mapAt wBufP 0 = ((0 : Nat) : Int) ∧
        wBufP.prodLoc = ((0 : Nat) : Int) + 1) ∧
     (([] : List (MBuffer → MBuffer)) = [] → (0 : Nat) = asSizeT wBuf.prodLoc)) :=
  prodClaim_spec 1 [] wBuf 0 0 wBufP envOK_nil (by decide) (by decide)

/-- C1 (amended): every consumer claim that completes with the stop flag
clear returns a pair `(k, a)` with `k = a mod rows` in range whose
slot-to-abs map entry equals `a` (the ABA check) and stores
`consLoc = a + 1`; in the uninterfered execution the returned absolute
index is exactly the `m_consLoc` loaded at entry.  When the map entry
differs from `a` after the consumer wins the CAS to `READING`, the slot
status is stored back to `READY_FOR_READ` and the outer loop re-enters
still pinned to the same absolute index `a` (a fresh `m_consLoc` is
loaded only after a subsequent CAS failure), so the stale slot is never
returned. -/
theorem consClaim_valid_claim_spec (fuel : Nat) (env : List (MBuffer → MBuffer)) (b : MBuffer)
    (ret aOut : Nat) (s' : MBuffer) (henv : EnvOK env) (hwf : Wf b)
    (hrun : GetNextLocForCons fuel env b = some (ret, aOut, s')) :
    (s'.stop = false →
      ret = aOut % b.rows ∧ ret < b.rows ∧ mapAt s' ret = (aOut : Int) ∧
        s'.consLoc = (aOut : Int) + 1) ∧
    (env = [] → aOut = asSizeT b.consLoc) ∧
    (∀ (fl : Nat) (env2 : List (MBuffer → MBuffer)) (s : MBuffer) (a : Int) (l : Nat)
        (s1 : MBuffer) (env1 : List (MBuffer → MBuffer)),
      interfere env2 s = (s1, env1) →
      statusAt s1 l = Status.READY_FOR_READ →
      mapAt (setStatus s1 l Status.READING) l ≠ a →
      consRun (fl + 1) env2 s CPhase.inner a l =
        consRun fl env1 (setStatus (setStatus s1 l Status.READING) l Status.READY_FOR_READ)
          CPhase.outer a l) := by
  simp only [GetNextLocForCons] at hrun
  refine ⟨?_, ?_, ?_⟩
  · intro hstop
    have h := consRun_spec (R := b.rows) fuel env b CPhase.outer b.consLoc
      (ringLoc b.consLoc b.rows) ret aOut s' henv hwf rfl
      hwf.2.2.2.2.2.2.1 hwf.2.2.2.2.2.2.2 rfl hrun
    obtain ⟨c1, c2, c3, c4⟩ := h.2.2 hstop
    exact ⟨c2, c1, c3, c4⟩
  · rintro rfl
    exact (consRun_nil_spec fuel b CPhase.outer b.consLoc (ringLoc b.consLoc b.rows)
      ret aOut s' rfl hrun).1
  · intro fl env2 s a l s1 env1 hint hcas hmap
    rw [consRun, hint]
    dsimp only
    rw [if_pos hcas, if_neg hmap]

/-- Witness for C1: on a 2-by-1 buffer with absolute 0 produced and
released, the consumer claim returns ring index 0 for absolute index 0
and advances the cursor. -/
theorem consClaim_valid_claim_spec_witness :
    ((wBufC1.stop = false →
      0 = 0 % wBufC.rows ∧ 0 < wBufC.rows ∧ mapAt wBufC1 0 = ((0 : Nat) : Int) ∧
        wBufC1.consLoc = ((0 : Nat) : Int) + 1) ∧
     (([] : List (MBuffer → MBuffer)) = [] → (0 : Nat) = asSizeT wBufC.consLoc) ∧
     (∀ (fl : Nat) (env2 : List (MBuffer → MBuffer)) (s : MBuffer) (a : Int) (l : Nat)
        (s1 : MBuffer) (env1 : List (MBuffer → MBuffer)),
      interfere env2 s = (s1, env1) →
      statusAt s1 l = Status.READY_FOR_READ →
      mapAt (setStatus s1 l Status.READING) l ≠ a →
      consRun (fl + 1) env2 s CPhase.inner a l =
        consRun fl env1 (setStatus (setStatus s1 l Status.READING) l Status.READY_FOR_READ)
          CPhase.outer a l)) :=
  consClaim_valid_claim_spec 2 [] wBufC 0 0 wBufC1 envOK_nil (by decide) (by decide)

/-- C1 counterexample: under the documented ABA schedule the code path
after the rollback retries the CAS still pinned to the stale absolute
index 0 — winning it again and rolling back forever — whereas the
algorithm described by the specification sentence (continue the outer
loop with a freshly loaded `consLoc`, `consRunFresh`) claims slot 1 for
absolute index 1 and returns.  The two behaviours differ, so the claim
that the consumer "retries with a freshly loaded consLoc" after a
rollback is false of the code. -/
theorem consClaim_fresh_reload_counterexample :
    GetNextLocForCons 6 [cexF] cexB = none ∧
    Option.map (fun x : Nat × Nat × MBuffer => (x.1, x.2.1))
      (GetNextLocForConsFresh 6 [cexF] cexB) = some (1, 1) := by
  constructor
  · decide
  · decide

/-- C9: the sentinel `(size_t)(-1)` is out of range for every valid
configuration; a claim that completes returns the sentinel exactly when
the final stop check observes the stop flag, and a ring index strictly
below `rows` when it does not. -/
theorem claim_sentinel_spec (fuel : Nat) (env : List (MBuffer → MBuffer)) (b : MBuffer)
    (henv : EnvOK env) (hwf : Wf b) :
    b.rows ≤ SENTINEL ∧
    (∀ ret aOut s', GetNextLocForProd fuel env b = some (ret, aOut, s') →
      ((s'.stop = true ↔ ret = SENTINEL) ∧ (s'.stop = false → ret < b.rows))) ∧
    (∀ ret aOut s', GetNextLocForCons fuel env b = some (ret, aOut, s') →
      ((s'.stop = true ↔ ret = SENTINEL) ∧ (s'.stop = false → ret < b.rows))) := by
  have h64 : (2 : Nat) ^ 64 = 18446744073709551616 := by norm_num
  have hsen : b.rows ≤ SENTINEL := by
    have hr := hwf.2.1
    unfold SENTINEL
    omega
  have hnot : ¬ SENTINEL < b.rows := not_lt.mpr hsen
  refine ⟨hsen, fun ret aOut s' hrun => ?_, fun ret aOut s' hrun => ?_⟩
  · simp only [GetNextLocForProd] at hrun
    have h := prodRun_spec (R := b.rows) fuel env b b.prodLoc (ringLoc b.prodLoc b.rows)
      ret aOut s' henv hwf rfl hwf.2.2.2.2.1 hwf.2.2.2.2.2.1 rfl hrun
    refine ⟨⟨h.2.1, fun hret => ?_⟩, fun hstop => (h.2.2 hstop).1⟩
    cases hs : s'.stop with
    | true => rfl
    | false =>
        have hlt : ret < b.rows := (h.2.2 hs).1
        rw [hret] at hlt
        exact absurd hlt hnot
  · simp only [GetNextLocForCons] at hrun
    have h := consRun_spec (R := b.rows) fuel env b CPhase.outer b.consLoc
      (ringLoc b.consLoc b.rows) ret aOut s' henv hwf rfl
      hwf.2.2.2.2.2.2.1 hwf.2.2.2.2.2.2.2 rfl hrun
    refine ⟨⟨h.2.1, fun hret => ?_⟩, fun hstop => (h.2.2 hstop).1⟩
    cases hs : s'.stop with
    | true => rfl
    | false =>
        have hlt : ret < b.rows := (h.2.2 hs).1
        rw [hret] at hlt
        exact absurd hlt hnot

/-- Witness for C9 at a concrete buffer and environment. -/
theorem claim_sentinel_spec_witness :
    wBuf.rows ≤ SENTINEL ∧
    (∀ ret aOut s', GetNextLocForProd 1 [] wBuf = some (ret, aOut, s') →
      ((s'.stop = true ↔ ret = SENTINEL) ∧ (s'.stop = false → ret < wBuf.rows))) ∧
    (∀ ret aOut s', GetNextLocForCons 1 [] wBuf = some (ret, aOut, s') →
      ((s'.stop = true ↔ ret = SENTINEL) ∧ (s'.stop = false → ret < wBuf.rows))) :=
  claim_sentinel_spec 1 [] wBuf envOK_nil (by decide)

/-- C10: a claim that returns the stop sentinel in the uninterfered
execution leaves every buffer component except the slot statuses
unchanged — the producer writes neither the map entry nor `m_prodLoc`,
the consumer does not advance `m_consLoc` — and the out-parameter holds
the absolute index loaded from the cursor. -/
theorem claim_stop_frame_spec (fuel : Nat) (b : MBuffer) :
    (∀ ret aOut s', GetNextLocForProd fuel [] b = some (ret, aOut, s') → s'.stop = true →
      ret = SENTINEL ∧ aOut = asSizeT b.prodLoc ∧ s'.prodLoc = b.prodLoc ∧
        s'.consLoc = b.consLoc ∧ s'.locToAbsLocMap = b.locToAbsLocMap ∧
        s'.rows = b.rows ∧ s'.columns = b.columns ∧ s'.stop = b.stop) ∧
    (∀ ret aOut s', GetNextLocForCons fuel [] b = some (ret, aOut, s') → s'.stop = true →
      ret = SENTINEL ∧ aOut = asSizeT b.consLoc ∧ s'.consLoc = b.consLoc ∧
        s'.prodLoc = b.prodLoc ∧ s'.locToAbsLocMap = b.locToAbsLocMap ∧
        s'.rows = b.rows ∧ s'.columns = b.columns ∧ s'.stop = b.stop) := by
  constructor
  · intro ret aOut s' hrun hstop
    simp only [GetNextLocForProd] at hrun
    have h := prodRun_nil_spec fuel b b.prodLoc (ringLoc b.prodLoc b.rows) ret aOut s' rfl hrun
    obtain ⟨hret, hframe⟩ := h.2 hstop
    obtain ⟨f1, f2, f3, f4, f5, f6, f7⟩ := hframe
    exact ⟨hret, h.1, f6, f5, f7, f2, f3, f4⟩
  · intro ret aOut s' hrun hstop
    simp only [GetNextLocForCons] at hrun
    have h := consRun_nil_spec fuel b CPhase.outer b.consLoc (ringLoc b.consLoc b.rows)
      ret aOut s' rfl hrun
    obtain ⟨hret, hframe⟩ := h.2 hstop
    obtain ⟨f1, f2, f3, f4, f5, f6, f7⟩ := hframe
    exact ⟨hret, h.1, f5, f6, f7, f2, f3, f4⟩

/-- Witness for C10: on a stopped buffer the producer claim wins the CAS,
observes the stop flag, and returns the sentinel having changed only the
slot status. -/
theorem claim_stop_frame_spec_witness :
    GetNextLocForProd 1 [] wBufS = some (SENTINEL, 0, wBufSP) ∧ wBufSP.stop = true ∧
    (SENTINEL = SENTINEL ∧ (0 : Nat) = asSizeT wBufS.prodLoc ∧
      wBufSP.prodLoc = wBufS.prodLoc ∧ wBufSP.consLoc = wBufS.consLoc ∧
      wBufSP.locToAbsLocMap = wBufS.locToAbsLocMap ∧ wBufSP.rows = wBufS.rows ∧
      wBufSP.columns = wBufS.columns ∧ wBufSP.stop = wBufS.stop) :=
  ⟨by decide, by decide,
    (claim_stop_frame_spec 1 wBufS).1 SENTINEL 0 wBufSP (by decide) (by decide)⟩

/-- C5 (code behaviour at the verifier failure): consuming the value 5
at absolute position 0 (row 0, one column, previous value -1) is a
slot-identity violation, and the process exits with status code 0 — not
a non-zero code — because `Consumer::Run` calls `exit(0)` on both
verifier failure paths; a passing row does not exit. -/
theorem verifier_failure_exit_code :
    consumerVerifyRow 0 1 [5] (-1) = some 0 ∧ consumerVerifyRow 0 1 [0] (-1) = none := by
  constructor
  · decide
  · decide

/-- C6 (amended): `SetRowsColumns` throws (and leaves the buffer,
including `rows` and `columns`, unchanged) exactly when the `size_t`
product `r * c` differs from the raw capacity modulo `2 ^ 64`; for
shapes whose product does not overflow `size_t` this is exactly
`r * c ≠ rawBufSize`, and then the shape invariant
`rows * columns = rawBufSize` holds after every call; in general the
invariant holds only modulo `2 ^ 64`. -/
theorem setRowsColumns_spec (b : MBuffer) (r c : Nat)
    (hinv : b.rows * b.columns = b.rawBufSize) (hN : b.rawBufSize < SIZE_T_MOD) :
    ((r * c) % SIZE_T_MOD ≠ b.rawBufSize % SIZE_T_MOD →
      SetRowsColumns b r c = (b, some "rows x columns != buffer size")) ∧
    ((r * c) % SIZE_T_MOD = b.rawBufSize % SIZE_T_MOD →
      SetRowsColumns b r c = ({ b with rows := r, columns := c }, none)) ∧
    (r * c < SIZE_T_MOD →
      ((r * c ≠ b.rawBufSize →
          SetRowsColumns b r c = (b, some "rows x columns != buffer size")) ∧
       (r * c = b.rawBufSize →
          SetRowsColumns b r c = ({ b with rows := r, columns := c }, none)) ∧
       (SetRowsColumns b r c).1.rows * (SetRowsColumns b r c).1.columns = b.rawBufSize)) ∧
    ((SetRowsColumns b r c).1.rows * (SetRowsColumns b r c).1.columns % SIZE_T_MOD =
      b.rawBufSize % SIZE_T_MOD) := by
  refine ⟨fun h => by simp [SetRowsColumns, h], fun h => by simp [SetRowsColumns, h], ?_, ?_⟩
  · intro hrc
    have hm1 : r * c % SIZE_T_MOD = r * c := Nat.mod_eq_of_lt hrc
    have hm2 : b.rawBufSize % SIZE_T_MOD = b.rawBufSize := Nat.mod_eq_of_lt hN
    refine ⟨fun hne => ?_, fun he => ?_, ?_⟩
    · simp [SetRowsColumns, hm1, hm2, hne]
    · simp [SetRowsColumns, hm1, hm2, he]
    · by_cases he : r * c = b.rawBufSize
      · simp [SetRowsColumns, hm1, hm2, he]
      · simp [SetRowsColumns, hm1, hm2, he, hinv]
  · by_cases h : r * c % SIZE_T_MOD = b.rawBufSize % SIZE_T_MOD
    · simp [SetRowsColumns, h]
    · simp [SetRowsColumns, h, hinv]

/-- C6 counterexample: the comparison in `SetRowsColumns` is performed
in `size_t` and wraps modulo `2 ^ 64`: on the 2-element buffer the
shape `rows_ = 2 ^ 63 + 1`, `columns_ = 2` has a product different
from the capacity, yet it is accepted without a domain error, and the
shape invariant `rows * columns = rawBufSize` fails afterwards —
refuting "fails with a domain error when r·c ≠ N" and "rows·columns = N
holds after every call". -/
theorem setRowsColumns_wrap_counterexample :
    (2 ^ 63 + 1) * 2 ≠ wBuf.rawBufSize ∧
    SetRowsColumns wBuf (2 ^ 63 + 1) 2 =
      ({ wBuf with rows := 2 ^ 63 + 1, columns := 2 }, none) ∧
    (SetRowsColumns wBuf (2 ^ 63 + 1) 2).1.rows *
      (SetRowsColumns wBuf (2 ^ 63 + 1) 2).1.columns ≠ wBuf.rawBufSize := by
  refine ⟨by decide, by decide, by decide⟩

/-- Witness for C6 at a concrete buffer and a non-wrapping shape. -/
theorem setRowsColumns_spec_witness :
    ((1 * 2 % SIZE_T_MOD ≠ wBuf.rawBufSize % SIZE_T_MOD →
      SetRowsColumns wBuf 1 2 = (wBuf, some "rows x columns != buffer size")) ∧
     (1 * 2 % SIZE_T_MOD = wBuf.rawBufSize % SIZE_T_MOD →
      SetRowsColumns wBuf 1 2 = ({ wBuf with rows := 1, columns := 2 }, none)) ∧
     (1 * 2 < SIZE_T_MOD →
       ((1 * 2 ≠ wBuf.rawBufSize →
          SetRowsColumns wBuf 1 2 = (wBuf, some "rows x columns != buffer size")) ∧
        (1 * 2 = wBuf.rawBufSize →
          SetRowsColumns wBuf 1 2 = ({ wBuf with rows := 1, columns := 2 }, none)) ∧
        (SetRowsColumns wBuf 1 2).1.rows * (SetRowsColumns wBuf 1 2).1.columns =
          wBuf.rawBufSize)) ∧
     ((SetRowsColumns wBuf 1 2).1.rows * (SetRowsColumns wBuf 1 2).1.columns % SIZE_T_MOD =
       wBuf.rawBufSize % SIZE_T_MOD)) :=
  setRowsColumns_spec wBuf 1 2 (by decide) (by decide)

/-- C7: after `Reset` the buffer is in the initial state — both cursors
zero, the stop flag clear, and (with the row count unchanged) every slot
status `READY_FOR_WRITE` and every slot-to-abs map entry `-1`. -/
theorem reset_initial_state (b : MBuffer) :
    (Reset b).consLoc = 0 ∧ (Reset b).prodLoc = 0 ∧ (Reset b).stop = false ∧
    (Reset b).rows = b.rows ∧
    (∀ i, i < b.rows → statusAt (Reset b) i = Status.READY_FOR_WRITE) ∧
    (∀ i, i < b.rows → mapAt (Reset b) i = -1) := by
  refine ⟨rfl, rfl, rfl, rfl, fun i hi => ?_, fun i hi => ?_⟩
  · exact statusAt_releaseAll_lt { b with consLoc := 0, prodLoc := 0 } hi
  · exact mapAt_releaseAll_lt { b with consLoc := 0, prodLoc := 0 } hi

/-- C8: `Stop` is idempotent — a second call produces exactly the same
state — and one call sets the stop flag, stores `READY_FOR_WRITE` into
every slot status and `-1` into every slot-to-abs map entry. -/
theorem stop_idempotent_spec (b : MBuffer) :
    Stop (Stop b) = Stop b ∧ (Stop b).stop = true ∧
    (∀ i, i < b.rows → statusAt (Stop b) i = Status.READY_FOR_WRITE) ∧
    (∀ i, i < b.rows → mapAt (Stop b) i = -1) := by
  refine ⟨?_, rfl, fun i hi => ?_, fun i hi => ?_⟩
  · show ReleaseAllLocks { Stop b with stop := true } = Stop b
    rw [stop_update_self (x := Stop b) rfl]
    exact releaseAll_idem { b with stop := true }
  · exact statusAt_releaseAll_lt { b with stop := true } hi
  · exact mapAt_releaseAll_lt { b with stop := true } hi

/-! Protocol component lemmas. -/

@[simp] theorem pstate_buf (bf : MBuffer) (ow : Nat → Owner) :
    (⟨bf, ow⟩ : PState).buf = bf := rfl

@[simp] theorem pstate_owner (bf : MBuffer) (ow : Nat → Owner) :
    (⟨bf, ow⟩ : PState).owner = ow := rfl

@[simp] theorem updOwner_self (ow : Nat → Owner) (k : Nat) (o : Owner) :
    updOwner ow k o k = o := by
  simp [updOwner]

theorem updOwner_other (ow : Nat → Owner) (k : Nat) (o : Owner) {j : Nat} (h : j ≠ k) :
    updOwner ow k o j = ow j := by
  simp [updOwner, h]

@[simp] theorem prodClaimEff_rows (b : MBuffer) : (prodClaimEff b).rows = b.rows := rfl

@[simp] theorem prodClaimEff_columns (b : MBuffer) : (prodClaimEff b).columns = b.columns := rfl

@[simp] theorem prodClaimEff_rawBufSize (b : MBuffer) :
    (prodClaimEff b).rawBufSize = b.rawBufSize := rfl

@[simp] theorem prodClaimEff_stop (b : MBuffer) : (prodClaimEff b).stop = b.stop := rfl

@[simp] theorem prodClaimEff_consLoc (b : MBuffer) : (prodClaimEff b).consLoc = b.consLoc := rfl

@[simp] theorem prodClaimEff_prodLoc (b : MBuffer) :
    (prodClaimEff b).prodLoc = b.prodLoc + 1 := rfl

@[simp] theorem prodClaimEff_stLen (b : MBuffer) :
    (prodClaimEff b).locStatus.length = b.locStatus.length := by
  show (b.locStatus.set (ringLoc b.prodLoc b.rows) Status.WRITING).length = _
  simp

@[simp] theorem prodClaimEff_mpLen (b : MBuffer) :
    (prodClaimEff b).locToAbsLocMap.length = b.locToAbsLocMap.length := by
  show (b.locToAbsLocMap.set (ringLoc b.prodLoc b.rows) b.prodLoc).length = _
  simp

theorem statusAt_prodClaimEff (b : MBuffer) (j : Nat) :
    statusAt (prodClaimEff b) j =
      statusAt (setStatus b (ringLoc b.prodLoc b.rows) Status.WRITING) j := rfl

theorem mapAt_prodClaimEff (b : MBuffer) (j : Nat) :
    mapAt (prodClaimEff b) j =
      (b.locToAbsLocMap.set (ringLoc b.prodLoc b.rows) b.prodLoc).getD j (-1) := rfl

@[simp] theorem consClaimEff_rows (b : MBuffer) : (consClaimEff b).rows = b.rows := rfl

@[simp] theorem consClaimEff_columns (b : MBuffer) : (consClaimEff b).columns = b.columns := rfl

@[simp] theorem consClaimEff_rawBufSize (b : MBuffer) :
    (consClaimEff b).rawBufSize = b.rawBufSize := rfl

@[simp] theorem consClaimEff_stop (b : MBuffer) : (consClaimEff b).stop = b.stop := rfl

@[simp] theorem consClaimEff_prodLoc (b : MBuffer) : (consClaimEff b).prodLoc = b.prodLoc := rfl

@[simp] theorem consClaimEff_consLoc (b : MBuffer) :
    (consClaimEff b).consLoc = b.consLoc + 1 := rfl

@[simp] theorem consClaimEff_stLen (b : MBuffer) :
    (consClaimEff b).locStatus.length = b.locStatus.length := by
  show (b.locStatus.set (ringLoc b.consLoc b.rows) Status.READING).length = _
  simp

@[simp] theorem consClaimEff_mpLen (b : MBuffer) :
    (consClaimEff b).locToAbsLocMap.length = b.locToAbsLocMap.length := rfl

theorem statusAt_consClaimEff (b : MBuffer) (j : Nat) :
    statusAt (consClaimEff b) j =
      statusAt (setStatus b (ringLoc b.consLoc b.rows) Status.READING) j := rfl

@[simp] theorem mapAt_consClaimEff (b : MBuffer) (j : Nat) :
    mapAt (consClaimEff b) j = mapAt b j := rfl

theorem getD_replicate {α} (n i : Nat) (d : α) : (List.replicate n d).getD i d = d := by
  by_cases h : i < n
  · simp [List.getD_eq_getElem?_getD, List.getElem?_replicate, h]
  · have hlen : (List.replicate n d).length ≤ i := by
      simp only [List.length_replicate]
      omega
    rw [List.getD_eq_getElem?_getD, List.getElem?_eq_none hlen]
    rfl

theorem statusAt_init (R C k : Nat) : statusAt (MBuffer.init R C) k = Status.READY_FOR_WRITE := by
  unfold MBuffer.init
  by_cases h : k < R
  · exact statusAt_releaseAll_lt _ h
  · rw [statusAt_releaseAll_ge _ (Nat.le_of_not_lt h)]
    exact getD_replicate _ _ _

theorem statusAt_oob {b : MBuffer} {k : Nat} (h : b.locStatus.length ≤ k) :
    statusAt b k = Status.READY_FOR_WRITE := by
  rw [statusAt, List.getD_eq_getElem?_getD, List.getElem?_eq_none h]
  rfl

/-- A slot whose status differs from the out-of-bounds default is in
bounds. -/
theorem statusAt_ne_default_lt {b : MBuffer} {k : Nat}
    (h : statusAt b k ≠ Status.READY_FOR_WRITE) : k < b.locStatus.length := by
  by_contra hc
  exact h (statusAt_oob (Nat.le_of_not_lt hc))

/-- Two absolute indices of a window of width at most `R` occupy the same
ring slot only if they are equal. -/
theorem window_ringLoc_inj {R : Nat} {lo hi a a' : Int}
    (h0 : 0 ≤ lo) (hhi : hi ≤ lo + (R : Int)) (hlt : hi < 2 ^ 63)
    (ha : lo ≤ a) (ha2 : a < hi) (hb : lo ≤ a') (hb2 : a' < hi)
    (heq : ringLoc a R = ringLoc a' R) : a = a' := by
  have hp : ((2 : Int) ^ 63) < 2 ^ 64 := by norm_num
  rcases le_total a a' with hle | hle
  · exact ringLoc_inj (le_trans h0 ha) hle (by omega) (by omega) heq
  · exact (ringLoc_inj (le_trans h0 hb) hle (by omega) (by omega) heq.symm).symm

/-! The protocol invariant. -/

theorem inv_init (R C : Nat) (hR : 0 < R) (hC : 0 < C) : Inv R C (startP R C) := by
  refine ⟨rfl, rfl, rfl, ?_, ?_, rfl, le_refl 0, le_refl 0, ?_, ?_, ?_, ?_, ?_, ?_, ?_⟩
  · show (MBuffer.init R C).locStatus.length = R * C
    simp [MBuffer.init]
  · show (MBuffer.init R C).locToAbsLocMap.length = R * C
    simp [MBuffer.init]
  · show (0 : Int) ≤ 0 + (R : Int)
    omega
  · show (0 : Int) < 2 ^ 63
    norm_num
  · intro a h1 h2
    exfalso
    have he : (startP R C).buf.consLoc = (startP R C).buf.prodLoc := rfl
    omega
  · intro k hk
    simp [startP] at hk
  · intro k hk
    simp [startP] at hk
  · intro k hk
    simp [startP] at hk
  · intro k hk
    rw [show (startP R C).buf = MBuffer.init R C from rfl, statusAt_init] at hk
    cases hk

theorem inv_prodClaim {R C : Nat} {s : PState} (hR : 0 < R) (hC : 0 < C) (hinv : Inv R C s)
    (hov : s.buf.prodLoc + 1 < 2 ^ 63)
    (hcas : statusAt s.buf (ringLoc s.buf.prodLoc s.buf.rows) = Status.READY_FOR_WRITE) :
    Inv R C
      ⟨prodClaimEff s.buf,
        updOwner s.owner (ringLoc s.buf.prodLoc s.buf.rows) Owner.prodO⟩ := by
  obtain ⟨hrows, hcols, hraw, hstL, hmpL, hstop, hcn, hcp, hpl, hplt, hinf, hpo, hco, hso,
    hrfr⟩ := hinv
  set b := s.buf with hb
  set k0 := ringLoc b.prodLoc b.rows with hk0def
  have hk0 : k0 = ringLoc b.prodLoc R := by rw [hk0def, hrows]
  have hk0R : k0 < R := by
    rw [hk0]
    exact ringLoc_lt _ hR
  have hRle : R ≤ R * C := Nat.le_mul_of_pos_right R hC
  have hk0st : k0 < b.locStatus.length := by
    rw [hstL]
    omega
  have hk0mp : k0 < b.locToAbsLocMap.length := by
    rw [hmpL]
    omega
  have hp64 : ((2 : Int) ^ 63) < 2 ^ 64 := by norm_num
  have hplt' : b.prodLoc < b.consLoc + (R : Int) := by
    rcases lt_or_eq_of_le hpl with h | h
    · exact h
    · exfalso
      have hRpos : (0 : Int) < (R : Int) := by exact_mod_cast hR
      have hcl : b.consLoc < b.prodLoc := by omega
      have hfl := hinf b.consLoc (le_refl _) hcl
      have hslot : ringLoc b.consLoc R = k0 := by
        rw [hk0, h, ringLoc_add_rows hcn (by omega)]
      rcases hfl.2 with ⟨hst, _⟩ | ⟨hst, _⟩ | ⟨hst, _⟩ <;>
        · rw [hslot, hcas] at hst
          cases hst
  refine ⟨?_, ?_, ?_, ?_, ?_, ?_, ?_, ?_, ?_, ?_, ?_, ?_, ?_, ?_, ?_⟩
  · show (prodClaimEff b).rows = R
    rw [prodClaimEff_rows, hrows]
  · show (prodClaimEff b).columns = C
    rw [prodClaimEff_columns, hcols]
  · show (prodClaimEff b).rawBufSize = R * C
    rw [prodClaimEff_rawBufSize, hraw]
  · show (prodClaimEff b).locStatus.length = R * C
    rw [prodClaimEff_stLen, hstL]
  · show (prodClaimEff b).locToAbsLocMap.length = R * C
    rw [prodClaimEff_mpLen, hmpL]
  · show (prodClaimEff b).stop = false
    rw [prodClaimEff_stop, hstop]
  · show 0 ≤ (prodClaimEff b).consLoc
    rw [prodClaimEff_consLoc]
    exact hcn
  · show (prodClaimEff b).consLoc ≤ (prodClaimEff b).prodLoc
    rw [prodClaimEff_consLoc, prodClaimEff_prodLoc]
    omega
  · show (prodClaimEff b).prodLoc ≤ (prodClaimEff b).consLoc + (R : Int)
    rw [prodClaimEff_consLoc, prodClaimEff_prodLoc]
    omega
  · show (prodClaimEff b).prodLoc < 2 ^ 63
    rw [prodClaimEff_prodLoc]
    exact hov
  · intro a h1 h2
    simp only [pstate_buf, prodClaimEff_consLoc] at h1
    simp only [pstate_buf, prodClaimEff_prodLoc] at h2
    simp only [pstate_buf, pstate_owner]
    by_cases hap : a = b.prodLoc
    · subst hap
      rw [hk0.symm]
      refine ⟨?_, Or.inl ⟨?_, ?_⟩⟩
      · rw [mapAt_prodClaimEff]
        exact getD_set_self _ _ _ _ hk0mp
      · show statusAt (prodClaimEff b) k0 = Status.WRITING
        rw [statusAt_prodClaimEff]
        exact statusAt_setStatus_self _ _ _ hk0st
      · exact updOwner_self _ _ _
    · have haa : a < b.prodLoc := by omega
      have hhi2 : b.prodLoc + 1 ≤ b.consLoc + (R : Int) := by omega
      have hne : ringLoc a R ≠ k0 := by
        intro he
        apply hap
        have heq2 : ringLoc a R = ringLoc b.prodLoc R := by rw [he, hk0]
        exact window_ringLoc_inj (R := R)
          hcn hhi2 hov h1 (by omega) hcp (by omega) heq2
      obtain ⟨hmapa, hsta⟩ := hinf a h1 haa
      refine ⟨?_, ?_⟩
      · rw [mapAt_prodClaimEff, getD_set_other _ _ _ hne]
        exact hmapa
      · rw [statusAt_prodClaimEff, statusAt_setStatus_other _ _ hne,
          updOwner_other _ _ _ hne]
        exact hsta
  · intro k hk
    simp only [pstate_buf, pstate_owner, prodClaimEff_consLoc, prodClaimEff_prodLoc] at hk ⊢
    by_cases hkk : k = k0
    · subst hkk
      refine ⟨?_, b.prodLoc, hcp, by omega, hk0.symm⟩
      rw [statusAt_prodClaimEff]
      exact statusAt_setStatus_self _ _ _ hk0st
    · rw [updOwner_other _ _ _ hkk] at hk
      obtain ⟨hst, a, ha1, ha2, ha3⟩ := hpo k hk
      refine ⟨?_, a, ha1, by omega, ha3⟩
      rw [statusAt_prodClaimEff, statusAt_setStatus_other _ _ hkk]
      exact hst
  · intro k hk
    simp only [pstate_buf, pstate_owner] at hk ⊢
    by_cases hkk : k = k0
    · subst hkk
      rw [updOwner_self] at hk
      cases hk
    · rw [updOwner_other _ _ _ hkk] at hk
      obtain ⟨hst, hlt⟩ := hco k hk
      refine ⟨?_, hlt⟩
      rw [statusAt_prodClaimEff, statusAt_setStatus_other _ _ hkk]
      exact hst
  · intro k hk
    simp only [pstate_buf, pstate_owner, prodClaimEff_consLoc, prodClaimEff_prodLoc] at hk ⊢
    by_cases hkk : k = k0
    · subst hkk
      rw [updOwner_self] at hk
      cases hk
    · rw [updOwner_other _ _ _ hkk] at hk
      obtain ⟨hst, a, ha1, ha2, ha3⟩ := hso k hk
      refine ⟨?_, a, ha1, by omega, ha3⟩
      rw [statusAt_prodClaimEff, statusAt_setStatus_other _ _ hkk]
      exact hst
  · intro k hk
    simp only [pstate_buf, pstate_owner, prodClaimEff_consLoc, prodClaimEff_prodLoc] at hk ⊢
    rw [statusAt_prodClaimEff] at hk
    by_cases hkk : k = k0
    · subst hkk
      rw [statusAt_setStatus_self _ _ _ hk0st] at hk
      cases hk
    · rw [statusAt_setStatus_other _ _ hkk] at hk
      obtain ⟨a, ha1, ha2, ha3⟩ := hrfr k hk
      exact ⟨a, ha1, by omega, ha3⟩

theorem inv_consClaim {R C : Nat} {s : PState} (hR : 0 < R) (hC : 0 < C) (hinv : Inv R C s)
    (hov : s.buf.consLoc + 1 < 2 ^ 63)
    (hcas : statusAt s.buf (ringLoc s.buf.consLoc s.buf.rows) = Status.READY_FOR_READ)
    (haba : mapAt s.buf (ringLoc s.buf.consLoc s.buf.rows) = s.buf.consLoc) :
    Inv R C
      ⟨consClaimEff s.buf,
        updOwner s.owner (ringLoc s.buf.consLoc s.buf.rows) Owner.consO⟩ := by
  obtain ⟨hrows, hcols, hraw, hstL, hmpL, hstop, hcn, hcp, hpl, hplt, hinf, hpo, hco, hso,
    hrfr⟩ := hinv
  set b := s.buf with hb
  set k0 := ringLoc b.consLoc b.rows with hk0def
  have hk0 : k0 = ringLoc b.consLoc R := by rw [hk0def, hrows]
  have hk0R : k0 < R := by
    rw [hk0]
    exact ringLoc_lt _ hR
  have hRle : R ≤ R * C := Nat.le_mul_of_pos_right R hC
  have hk0st : k0 < b.locStatus.length := by
    rw [hstL]
    omega
  have hclt : b.consLoc < b.prodLoc := by
    obtain ⟨a0, h1, h2, _⟩ := hrfr k0 hcas
    omega
  have hslotne : ∀ a : Int, b.consLoc ≤ a → a < b.prodLoc → a ≠ b.consLoc →
      ringLoc a R ≠ k0 := by
    intro a h1 h2 hane he
    apply hane
    refine window_ringLoc_inj (R := R)
      hcn hpl hplt h1 h2 (le_refl _) hclt ?_
    rw [he, hk0]
  refine ⟨?_, ?_, ?_, ?_, ?_, ?_, ?_, ?_, ?_, ?_, ?_, ?_, ?_, ?_, ?_⟩
  · show (consClaimEff b).rows = R
    rw [consClaimEff_rows, hrows]
  · show (consClaimEff b).columns = C
    rw [consClaimEff_columns, hcols]
  · show (consClaimEff b).rawBufSize = R * C
    rw [consClaimEff_rawBufSize, hraw]
  · show (consClaimEff b).locStatus.length = R * C
    rw [consClaimEff_stLen, hstL]
  · show (consClaimEff b).locToAbsLocMap.length = R * C
    rw [consClaimEff_mpLen, hmpL]
  · show (consClaimEff b).stop = false
    rw [consClaimEff_stop, hstop]
  · show 0 ≤ (consClaimEff b).consLoc
    rw [consClaimEff_consLoc]
    omega
  · show (consClaimEff b).consLoc ≤ (consClaimEff b).prodLoc
    rw [consClaimEff_consLoc, consClaimEff_prodLoc]
    omega
  · show (consClaimEff b).prodLoc ≤ (consClaimEff b).consLoc + (R : Int)
    rw [consClaimEff_consLoc, consClaimEff_prodLoc]
    omega
  · show (consClaimEff b).prodLoc < 2 ^ 63
    rw [consClaimEff_prodLoc]
    exact hplt
  · intro a h1 h2
    simp only [pstate_buf, consClaimEff_consLoc] at h1
    simp only [pstate_buf, consClaimEff_prodLoc] at h2
    simp only [pstate_buf, pstate_owner]
    have hane : a ≠ b.consLoc := by omega
    have hne : ringLoc a R ≠ k0 := hslotne a (by omega) h2 hane
    obtain ⟨hmapa, hsta⟩ := hinf a (by omega) h2
    refine ⟨?_, ?_⟩
    · rw [mapAt_consClaimEff]
      exact hmapa
    · rw [statusAt_consClaimEff, statusAt_setStatus_other _ _ hne,
        updOwner_other _ _ _ hne]
      exact hsta
  · intro k hk
    simp only [pstate_buf, pstate_owner, consClaimEff_consLoc, consClaimEff_prodLoc] at hk ⊢
    by_cases hkk : k = k0
    · subst hkk
      rw [updOwner_self] at hk
      cases hk
    · rw [updOwner_other _ _ _ hkk] at hk
      obtain ⟨hst, a, ha1, ha2, ha3⟩ := hpo k hk
      have hane : a ≠ b.consLoc := by
        intro he
        apply hkk
        rw [← ha3, he, hk0]
      refine ⟨?_, a, by omega, ha2, ha3⟩
      rw [statusAt_consClaimEff, statusAt_setStatus_other _ _ hkk]
      exact hst
  · intro k hk
    simp only [pstate_buf, pstate_owner] at hk ⊢
    by_cases hkk : k = k0
    · subst hkk
      refine ⟨?_, hk0R⟩
      rw [statusAt_consClaimEff]
      exact statusAt_setStatus_self _ _ _ hk0st
    · rw [updOwner_other _ _ _ hkk] at hk
      obtain ⟨hst, hlt⟩ := hco k hk
      refine ⟨?_, hlt⟩
      rw [statusAt_consClaimEff, statusAt_setStatus_other _ _ hkk]
      exact hst
  · intro k hk
    simp only [pstate_buf, pstate_owner, consClaimEff_consLoc, consClaimEff_prodLoc] at hk ⊢
    by_cases hkk : k = k0
    · subst hkk
      rw [updOwner_self] at hk
      cases hk
    · rw [updOwner_other _ _ _ hkk] at hk
      obtain ⟨hst, a, ha1, ha2, ha3⟩ := hso k hk
      have hane : a ≠ b.consLoc := by
        intro he
        apply hkk
        rw [← ha3, he, hk0]
      refine ⟨?_, a, by omega, ha2, ha3⟩
      rw [statusAt_consClaimEff, statusAt_setStatus_other _ _ hkk]
      exact hst
  · intro k hk
    simp only [pstate_buf, pstate_owner, consClaimEff_consLoc, consClaimEff_prodLoc] at hk ⊢
    rw [statusAt_consClaimEff] at hk
    by_cases hkk : k = k0
    · subst hkk
      rw [statusAt_setStatus_self _ _ _ hk0st] at hk
      cases hk
    · rw [statusAt_setStatus_other _ _ hkk] at hk
      obtain ⟨a, ha1, ha2, ha3⟩ := hrfr k hk
      have hane : a ≠ b.consLoc := by
        intro he
        apply hkk
        rw [← ha3, he, hk0]
      exact ⟨a, by omega, ha2, ha3⟩

theorem inv_staleClaim {R C : Nat} {s : PState} (hR : 0 < R) (hC : 0 < C) (hinv : Inv R C s)
    (k : Nat) (hcas : statusAt s.buf k = Status.READY_FOR_READ) :
    Inv R C ⟨setStatus s.buf k Status.READING, updOwner s.owner k Owner.staleO⟩ := by
  obtain ⟨hrows, hcols, hraw, hstL, hmpL, hstop, hcn, hcp, hpl, hplt, hinf, hpo, hco, hso,
    hrfr⟩ := hinv
  set b := s.buf with hb
  have hkst : k < b.locStatus.length :=
    statusAt_ne_default_lt (by rw [hcas]; intro h; cases h)
  obtain ⟨a0, ha01, ha02, ha03⟩ := hrfr k hcas
  refine ⟨hrows, hcols, hraw, by simpa using hstL, by simpa using hmpL, hstop, hcn, hcp,
    hpl, hplt, ?_, ?_, ?_, ?_, ?_⟩
  · intro a h1 h2
    simp only [pstate_buf, pstate_owner, setStatus_consLoc, setStatus_prodLoc] at h1 h2 ⊢
    obtain ⟨hmapa, hsta⟩ := hinf a h1 h2
    refine ⟨by rw [mapAt_setStatus]; exact hmapa, ?_⟩
    by_cases hjk : ringLoc a R = k
    · rw [hjk]
      rw [hjk] at hsta
      rcases hsta with ⟨hst, _⟩ | ⟨hst, _⟩ | ⟨hst, _⟩
      · rw [hcas] at hst
        cases hst
      · exact Or.inr (Or.inr ⟨statusAt_setStatus_self _ _ _ hkst, updOwner_self _ _ _⟩)
      · rw [hcas] at hst
        cases hst
    · rw [statusAt_setStatus_other _ _ hjk, updOwner_other _ _ _ hjk]
      exact hsta
  · intro j hj
    simp only [pstate_buf, pstate_owner, setStatus_consLoc, setStatus_prodLoc] at hj ⊢
    by_cases hjk : j = k
    · subst hjk
      rw [updOwner_self] at hj
      cases hj
    · rw [updOwner_other _ _ _ hjk] at hj
      obtain ⟨hst, a, ha1, ha2, ha3⟩ := hpo j hj
      exact ⟨by rw [statusAt_setStatus_other _ _ hjk]; exact hst, a, ha1, ha2, ha3⟩
  · intro j hj
    simp only [pstate_buf, pstate_owner] at hj ⊢
    by_cases hjk : j = k
    · subst hjk
      rw [updOwner_self] at hj
      cases hj
    · rw [updOwner_other _ _ _ hjk] at hj
      obtain ⟨hst, hlt⟩ := hco j hj
      exact ⟨by rw [statusAt_setStatus_other _ _ hjk]; exact hst, hlt⟩
  · intro j hj
    simp only [pstate_buf, pstate_owner, setStatus_consLoc, setStatus_prodLoc] at hj ⊢
    by_cases hjk : j = k
    · subst hjk
      exact ⟨statusAt_setStatus_self _ _ _ hkst, a0, ha01, ha02, ha03⟩
    · rw [updOwner_other _ _ _ hjk] at hj
      obtain ⟨hst, a, ha1, ha2, ha3⟩ := hso j hj
      exact ⟨by rw [statusAt_setStatus_other _ _ hjk]; exact hst, a, ha1, ha2, ha3⟩
  · intro j hj
    simp only [pstate_buf, pstate_owner, setStatus_consLoc, setStatus_prodLoc] at hj ⊢
    by_cases hjk : j = k
    · subst hjk
      rw [statusAt_setStatus_self _ _ _ hkst] at hj
      cases hj
    · rw [statusAt_setStatus_other _ _ hjk] at hj
      exact hrfr j hj

theorem inv_staleRelease {R C : Nat} {s : PState} (hR : 0 < R) (hC : 0 < C) (hinv : Inv R C s)
    (k : Nat) (hown : s.owner k = Owner.staleO) :
    Inv R C ⟨setStatus s.buf k Status.READY_FOR_READ, updOwner s.owner k Owner.free⟩ := by
  obtain ⟨hrows, hcols, hraw, hstL, hmpL, hstop, hcn, hcp, hpl, hplt, hinf, hpo, hco, hso,
    hrfr⟩ := hinv
  set b := s.buf with hb
  obtain ⟨hrd, a0, ha01, ha02, ha03⟩ := hso k hown
  have hkst : k < b.locStatus.length :=
    statusAt_ne_default_lt (by rw [hrd]; intro h; cases h)
  refine ⟨hrows, hcols, hraw, by simpa using hstL, by simpa using hmpL, hstop, hcn, hcp,
    hpl, hplt, ?_, ?_, ?_, ?_, ?_⟩
  · intro a h1 h2
    simp only [pstate_buf, pstate_owner, setStatus_consLoc, setStatus_prodLoc] at h1 h2 ⊢
    obtain ⟨hmapa, hsta⟩ := hinf a h1 h2
    refine ⟨by rw [mapAt_setStatus]; exact hmapa, ?_⟩
    by_cases hjk : ringLoc a R = k
    · rw [hjk]
      rw [hjk] at hsta
      rcases hsta with ⟨hst, hw⟩ | ⟨hst, hw⟩ | ⟨hst, hw⟩
      · rw [hown] at hw
        cases hw
      · rw [hown] at hw
        cases hw
      · exact Or.inr (Or.inl ⟨statusAt_setStatus_self _ _ _ hkst, updOwner_self _ _ _⟩)
    · rw [statusAt_setStatus_other _ _ hjk, updOwner_other _ _ _ hjk]
      exact hsta
  · intro j hj
    simp only [pstate_buf, pstate_owner, setStatus_consLoc, setStatus_prodLoc] at hj ⊢
    by_cases hjk : j = k
    · subst hjk
      rw [updOwner_self] at hj
      cases hj
    · rw [updOwner_other _ _ _ hjk] at hj
      obtain ⟨hst, a, ha1, ha2, ha3⟩ := hpo j hj
      exact ⟨by rw [statusAt_setStatus_other _ _ hjk]; exact hst, a, ha1, ha2, ha3⟩
  · intro j hj
    simp only [pstate_buf, pstate_owner] at hj ⊢
    by_cases hjk : j = k
    · subst hjk
      rw [updOwner_self] at hj
      cases hj
    · rw [updOwner_other _ _ _ hjk] at hj
      obtain ⟨hst, hlt⟩ := hco j hj
      exact ⟨by rw [statusAt_setStatus_other _ _ hjk]; exact hst, hlt⟩
  · intro j hj
    simp only [pstate_buf, pstate_owner, setStatus_consLoc, setStatus_prodLoc] at hj ⊢
    by_cases hjk : j = k
    · subst hjk
      rw [updOwner_self] at hj
      cases hj
    · rw [updOwner_other _ _ _ hjk] at hj
      obtain ⟨hst, a, ha1, ha2, ha3⟩ := hso j hj
      exact ⟨by rw [statusAt_setStatus_other _ _ hjk]; exact hst, a, ha1, ha2, ha3⟩
  · intro j hj
    simp only [pstate_buf, pstate_owner, setStatus_consLoc, setStatus_prodLoc] at hj ⊢
    by_cases hjk : j = k
    · subst hjk
      exact ⟨a0, ha01, ha02, ha03⟩
    · rw [statusAt_setStatus_other _ _ hjk] at hj
      exact hrfr j hj

theorem inv_prodRelease {R C : Nat} {s : PState} (hR : 0 < R) (hC : 0 < C) (hinv : Inv R C s)
    (k : Nat) (hown : s.owner k = Owner.prodO) :
    Inv R C ⟨SetLocReadyForCons s.buf k, updOwner s.owner k Owner.free⟩ := by
  obtain ⟨hrows, hcols, hraw, hstL, hmpL, hstop, hcn, hcp, hpl, hplt, hinf, hpo, hco, hso,
    hrfr⟩ := hinv
  set b := s.buf with hb
  obtain ⟨hwr, a0, ha01, ha02, ha03⟩ := hpo k hown
  have hkR : k < R := by
    rw [← ha03]
    exact ringLoc_lt _ hR
  have heff : SetLocReadyForCons b k = setStatus b k Status.READY_FOR_READ := by
    unfold SetLocReadyForCons
    rw [hrows, Nat.mod_eq_of_lt hkR]
  have hkst : k < b.locStatus.length :=
    statusAt_ne_default_lt (by rw [hwr]; intro h; cases h)
  rw [heff]
  refine ⟨hrows, hcols, hraw, by simpa using hstL, by simpa using hmpL, hstop, hcn, hcp,
    hpl, hplt, ?_, ?_, ?_, ?_, ?_⟩
  · intro a h1 h2
    simp only [pstate_buf, pstate_owner, setStatus_consLoc, setStatus_prodLoc] at h1 h2 ⊢
    obtain ⟨hmapa, hsta⟩ := hinf a h1 h2
    refine ⟨by rw [mapAt_setStatus]; exact hmapa, ?_⟩
    by_cases hjk : ringLoc a R = k
    · rw [hjk]
      rw [hjk] at hsta
      rcases hsta with ⟨hst, hw⟩ | ⟨hst, hw⟩ | ⟨hst, hw⟩
      · exact Or.inr (Or.inl ⟨statusAt_setStatus_self _ _ _ hkst, updOwner_self _ _ _⟩)
      · rw [hown] at hw
        cases hw
      · rw [hown] at hw
        cases hw
    · rw [statusAt_setStatus_other _ _ hjk, updOwner_other _ _ _ hjk]
      exact hsta
  · intro j hj
    simp only [pstate_buf, pstate_owner, setStatus_consLoc, setStatus_prodLoc] at hj ⊢
    by_cases hjk : j = k
    · subst hjk
      rw [updOwner_self] at hj
      cases hj
    · rw [updOwner_other _ _ _ hjk] at hj
      obtain ⟨hst, a, ha1, ha2, ha3⟩ := hpo j hj
      exact ⟨by rw [statusAt_setStatus_other _ _ hjk]; exact hst, a, ha1, ha2, ha3⟩
  · intro j hj
    simp only [pstate_buf, pstate_owner] at hj ⊢
    by_cases hjk : j = k
    · subst hjk
      rw [updOwner_self] at hj
      cases hj
    · rw [updOwner_other _ _ _ hjk] at hj
      obtain ⟨hst, hlt⟩ := hco j hj
      exact ⟨by rw [statusAt_setStatus_other _ _ hjk]; exact hst, hlt⟩
  · intro j hj
    simp only [pstate_buf, pstate_owner, setStatus_consLoc, setStatus_prodLoc] at hj ⊢
    by_cases hjk : j = k
    · subst hjk
      rw [updOwner_self] at hj
      cases hj
    · rw [updOwner_other _ _ _ hjk] at hj
      obtain ⟨hst, a, ha1, ha2, ha3⟩ := hso j hj
      exact ⟨by rw [statusAt_setStatus_other _ _ hjk]; exact hst, a, ha1, ha2, ha3⟩
  · intro j hj
    simp only [pstate_buf, pstate_owner, setStatus_consLoc, setStatus_prodLoc] at hj ⊢
    by_cases hjk : j = k
    · subst hjk
      exact ⟨a0, ha01, ha02, ha03⟩
    · rw [statusAt_setStatus_other _ _ hjk] at hj
      exact hrfr j hj

theorem inv_consRelease {R C : Nat} {s : PState} (hR : 0 < R) (hC : 0 < C) (hinv : Inv R C s)
    (k : Nat) (hown : s.owner k = Owner.consO) :
    Inv R C ⟨SetLocReadyForProd s.buf k, updOwner s.owner k Owner.free⟩ := by
  obtain ⟨hrows, hcols, hraw, hstL, hmpL, hstop, hcn, hcp, hpl, hplt, hinf, hpo, hco, hso,
    hrfr⟩ := hinv
  set b := s.buf with hb
  obtain ⟨hrd, hkR⟩ := hco k hown
  have heff : SetLocReadyForProd b k = setStatus b k Status.READY_FOR_WRITE := by
    unfold SetLocReadyForProd
    rw [hrows, Nat.mod_eq_of_lt hkR]
  have hkst : k < b.locStatus.length :=
    statusAt_ne_default_lt (by rw [hrd]; intro h; cases h)
  rw [heff]
  refine ⟨hrows, hcols, hraw, by simpa using hstL, by simpa using hmpL, hstop, hcn, hcp,
    hpl, hplt, ?_, ?_, ?_, ?_, ?_⟩
  · intro a h1 h2
    simp only [pstate_buf, pstate_owner, setStatus_consLoc, setStatus_prodLoc] at h1 h2 ⊢
    obtain ⟨hmapa, hsta⟩ := hinf a h1 h2
    have hjk : ringLoc a R ≠ k := by
      intro he
      rw [he] at hsta
      rcases hsta with ⟨hst, hw⟩ | ⟨hst, hw⟩ | ⟨hst, hw⟩ <;>
        · rw [hown] at hw
          cases hw
    rw [statusAt_setStatus_other _ _ hjk, updOwner_other _ _ _ hjk, mapAt_setStatus]
    exact ⟨hmapa, hsta⟩
  · intro j hj
    simp only [pstate_buf, pstate_owner, setStatus_consLoc, setStatus_prodLoc] at hj ⊢
    by_cases hjk : j = k
    · subst hjk
      rw [updOwner_self] at hj
      cases hj
    · rw [updOwner_other _ _ _ hjk] at hj
      obtain ⟨hst, a, ha1, ha2, ha3⟩ := hpo j hj
      exact ⟨by rw [statusAt_setStatus_other _ _ hjk]; exact hst, a, ha1, ha2, ha3⟩
  · intro j hj
    simp only [pstate_buf, pstate_owner] at hj ⊢
    by_cases hjk : j = k
    · subst hjk
      rw [updOwner_self] at hj
      cases hj
    · rw [updOwner_other _ _ _ hjk] at hj
      obtain ⟨hst, hlt⟩ := hco j hj
      exact ⟨by rw [statusAt_setStatus_other _ _ hjk]; exact hst, hlt⟩
  · intro j hj
    simp only [pstate_buf, pstate_owner, setStatus_consLoc, setStatus_prodLoc] at hj ⊢
    by_cases hjk : j = k
    · subst hjk
      rw [updOwner_self] at hj
      cases hj
    · rw [updOwner_other _ _ _ hjk] at hj
      obtain ⟨hst, a, ha1, ha2, ha3⟩ := hso j hj
      exact ⟨by rw [statusAt_setStatus_other _ _ hjk]; exact hst, a, ha1, ha2, ha3⟩
  · intro j hj
    simp only [pstate_buf, pstate_owner, setStatus_consLoc, setStatus_prodLoc] at hj ⊢
    by_cases hjk : j = k
    · subst hjk
      rw [statusAt_setStatus_self _ _ _ hkst] at hj
      cases hj
    · rw [statusAt_setStatus_other _ _ hjk] at hj
      exact hrfr j hj

theorem inv_reset {R C : Nat} {s : PState} (hR : 0 < R) (hC : 0 < C) (hinv : Inv R C s)
    (hquiet : ∀ k, s.owner k = Owner.free) :
    Inv R C ⟨Reset s.buf, s.owner⟩ := by
  obtain ⟨hrows, hcols, hraw, hstL, hmpL, hstop, hcn, hcp, hpl, hplt, hinf, hpo, hco, hso,
    hrfr⟩ := hinv
  set b := s.buf with hb
  refine ⟨hrows, hcols, hraw, ?_, ?_, rfl, le_refl 0, le_refl 0, ?_, ?_,
    ?_, ?_, ?_, ?_, ?_⟩
  · show (Reset b).locStatus.length = R * C
    rw [show (Reset b).locStatus.length = b.locStatus.length from releaseAux_len_st _ _ _]
    exact hstL
  · show (Reset b).locToAbsLocMap.length = R * C
    rw [show (Reset b).locToAbsLocMap.length = b.locToAbsLocMap.length from
      releaseAux_len_mp _ _ _]
    exact hmpL
  · show (0 : Int) ≤ 0 + (R : Int)
    omega
  · show (0 : Int) < 2 ^ 63
    norm_num
  · intro a h1 h2
    exfalso
    have he1 : (⟨Reset b, s.owner⟩ : PState).buf.consLoc = 0 := rfl
    have he2 : (⟨Reset b, s.owner⟩ : PState).buf.prodLoc = 0 := rfl
    omega
  · intro j hj
    simp only [pstate_owner] at hj
    rw [hquiet j] at hj
    cases hj
  · intro j hj
    simp only [pstate_owner] at hj
    rw [hquiet j] at hj
    cases hj
  · intro j hj
    simp only [pstate_owner] at hj
    rw [hquiet j] at hj
    cases hj
  · intro j hj
    simp only [pstate_buf] at hj
    exfalso
    by_cases hjR : j < b.rows
    · rw [show statusAt (Reset b) j =
          statusAt (ReleaseAllLocks { b with consLoc := 0, prodLoc := 0 }) j from rfl,
        statusAt_releaseAll_lt { b with consLoc := 0, prodLoc := 0 } hjR] at hj
      cases hj
    · rw [show statusAt (Reset b) j =
          statusAt (ReleaseAllLocks { b with consLoc := 0, prodLoc := 0 }) j from rfl,
        statusAt_releaseAll_ge { b with consLoc := 0, prodLoc := 0 }
          (Nat.le_of_not_lt hjR)] at hj
      obtain ⟨a, ha1, ha2, ha3⟩ := hrfr j hj
      have : j < R := by
        rw [← ha3]
        exact ringLoc_lt _ hR
      rw [hrows] at hjR
      omega

/-- Every protocol step preserves the invariant. -/
theorem inv_step {R C : Nat} {s s' : PState} {lb : Label} (hR : 0 < R) (hC : 0 < C)
    (hinv : Inv R C s) (hstep : PStep lb s s') : Inv R C s' := by
  cases hstep with
  | prodClaim hstop hov hcas => exact inv_prodClaim hR hC hinv hov hcas
  | consClaim hstop hov hcas haba => exact inv_consClaim hR hC hinv hov hcas haba
  | staleClaim k aStale hstop hcas haba => exact inv_staleClaim hR hC hinv k hcas
  | staleRelease k hown => exact inv_staleRelease hR hC hinv k hown
  | prodRelease k hown => exact inv_prodRelease hR hC hinv k hown
  | consRelease k hown => exact inv_consRelease hR hC hinv k hown
  | reset hquiet => exact inv_reset hR hC hinv hquiet

/-- The invariant holds in every reachable state. -/
theorem inv_reach {R C : Nat} {s : PState} (hR : 0 < R) (hC : 0 < C)
    (hreach : Reach R C s) : Inv R C s := by
  induction hreach with
  | init => exact inv_init R C hR hC
  | step _ hstep ih => exact inv_step hR hC ih hstep

/-- C3: in every state reachable by the protocol step relation (claims,
releases, reset) the cursors satisfy
`0 ≤ consLoc ≤ prodLoc ≤ consLoc + rows` — producers never overrun
consumers by more than `rows` slots — and every non-reset step leaves
both cursors non-decreasing. -/
theorem cursor_invariants (R C : Nat) (s : PState) (hR : 0 < R) (hC : 0 < C)
    (hreach : Reach R C s) :
    (0 ≤ s.buf.consLoc ∧ s.buf.consLoc ≤ s.buf.prodLoc ∧
      s.buf.prodLoc ≤ s.buf.consLoc + (R : Int)) ∧
    (∀ (lb : Label) (s' : PState), PStep lb s s' → lb ≠ Label.reset →
      s.buf.consLoc ≤ s'.buf.consLoc ∧ s.buf.prodLoc ≤ s'.buf.prodLoc) := by
  have hinv := inv_reach hR hC hreach
  refine ⟨⟨hinv.cons_nonneg, hinv.cons_le_prod, hinv.prod_le⟩, ?_⟩
  intro lb s' hstep hne
  cases hstep with
  | prodClaim hstop hov hcas =>
      refine ⟨le_refl _, ?_⟩
      show s.buf.prodLoc ≤ (prodClaimEff s.buf).prodLoc
      rw [prodClaimEff_prodLoc]
      omega
  | consClaim hstop hov hcas haba =>
      refine ⟨?_, le_refl _⟩
      show s.buf.consLoc ≤ (consClaimEff s.buf).consLoc
      rw [consClaimEff_consLoc]
      omega
  | staleClaim k aStale hstop hcas haba => exact ⟨le_refl _, le_refl _⟩
  | staleRelease k hown => exact ⟨le_refl _, le_refl _⟩
  | prodRelease k hown => exact ⟨le_refl _, le_refl _⟩
  | consRelease k hown => exact ⟨le_refl _, le_refl _⟩
  | reset hquiet => exact absurd rfl hne

/-- Witness for C3 at the start state of a 1-by-1 configuration. -/
theorem cursor_invariants_witness :
    ((0 ≤ (startP 1 1).buf.consLoc ∧
      (startP 1 1).buf.consLoc ≤ (startP 1 1).buf.prodLoc ∧
      (startP 1 1).buf.prodLoc ≤ (startP 1 1).buf.consLoc + ((1 : Nat) : Int)) ∧
     (∀ (lb : Label) (s' : PState), PStep lb (startP 1 1) s' → lb ≠ Label.reset →
      (startP 1 1).buf.consLoc ≤ s'.buf.consLoc ∧
        (startP 1 1).buf.prodLoc ≤ s'.buf.prodLoc)) :=
  cursor_invariants 1 1 (startP 1 1) (by decide) (by decide) Reach.init

/-- C4: in every reachable state, each slot-status change performed by a
claim or release step is one of the five legal transitions of the row
state machine; the claim steps fire only when the CAS reads its expected
value (`READY_FOR_WRITE` for producers, `READY_FOR_READ` for consumers,
including the stale claim, which changes exactly one slot); and in the
start state every slot is `READY_FOR_WRITE`. -/
theorem slot_fsm_transitions (R C : Nat) (s : PState) (lb : Label) (s' : PState)
    (hR : 0 < R) (hC : 0 < C) (hreach : Reach R C s) (hstep : PStep lb s s')
    (hnr : lb ≠ Label.reset) :
    (∀ k, statusAt s.buf k ≠ statusAt s'.buf k →
      legalTransition (statusAt s.buf k) (statusAt s'.buf k)) ∧
    (lb = Label.prodClaim →
      statusAt s.buf (ringLoc s.buf.prodLoc s.buf.rows) = Status.READY_FOR_WRITE) ∧
    (lb = Label.consClaim →
      statusAt s.buf (ringLoc s.buf.consLoc s.buf.rows) = Status.READY_FOR_READ) ∧
    (lb = Label.staleClaim → ∃ k, statusAt s.buf k = Status.READY_FOR_READ ∧
      statusAt s'.buf k = Status.READING ∧
      ∀ j, j ≠ k → statusAt s'.buf j = statusAt s.buf j) ∧
    (∀ k, statusAt (startP R C).buf k = Status.READY_FOR_WRITE) := by
  have hinv := inv_reach hR hC hreach
  have hRle : R ≤ R * C := Nat.le_mul_of_pos_right R hC
  cases hstep with
  | prodClaim hstop hov hcas =>
      have hk0R : ringLoc s.buf.prodLoc s.buf.rows < R := by
        rw [hinv.rows_eq]
        exact ringLoc_lt _ hR
      have hk0st : ringLoc s.buf.prodLoc s.buf.rows < s.buf.locStatus.length := by
        rw [hinv.stLen]
        omega
      refine ⟨?_, fun _ => hcas, fun h => Label.noConfusion h, fun h => Label.noConfusion h,
        fun k => statusAt_init R C k⟩
      intro k hne
      simp only [pstate_buf] at hne ⊢
      by_cases hkk : k = ringLoc s.buf.prodLoc s.buf.rows
      · subst hkk
        rw [hcas, statusAt_prodClaimEff, statusAt_setStatus_self _ _ _ hk0st]
        exact Or.inl ⟨rfl, rfl⟩
      · exfalso
        apply hne
        rw [statusAt_prodClaimEff, statusAt_setStatus_other _ _ hkk]
  | consClaim hstop hov hcas haba =>
      have hk0R : ringLoc s.buf.consLoc s.buf.rows < R := by
        rw [hinv.rows_eq]
        exact ringLoc_lt _ hR
      have hk0st : ringLoc s.buf.consLoc s.buf.rows < s.buf.locStatus.length := by
        rw [hinv.stLen]
        omega
      refine ⟨?_, fun h => Label.noConfusion h, fun _ => hcas, fun h => Label.noConfusion h,
        fun k => statusAt_init R C k⟩
      intro k hne
      simp only [pstate_buf] at hne ⊢
      by_cases hkk : k = ringLoc s.buf.consLoc s.buf.rows
      · subst hkk
        rw [hcas, statusAt_consClaimEff, statusAt_setStatus_self _ _ _ hk0st]
        exact Or.inr (Or.inr (Or.inl ⟨rfl, rfl⟩))
      · exfalso
        apply hne
        rw [statusAt_consClaimEff, statusAt_setStatus_other _ _ hkk]
  | staleClaim k aStale hstop hcas haba =>
      have hkst : k < s.buf.locStatus.length :=
        statusAt_ne_default_lt (by rw [hcas]; intro h; cases h)
      refine ⟨?_, fun h => Label.noConfusion h, fun h => Label.noConfusion h, fun _ => ?_,
        fun j => statusAt_init R C j⟩
      · intro j hne
        simp only [pstate_buf] at hne ⊢
        by_cases hjk : j = k
        · subst hjk
          rw [hcas, statusAt_setStatus_self _ _ _ hkst]
          exact Or.inr (Or.inr (Or.inl ⟨rfl, rfl⟩))
        · exfalso
          apply hne
          rw [statusAt_setStatus_other _ _ hjk]
      · refine ⟨k, hcas, ?_, ?_⟩
        · simp only [pstate_buf]
          exact statusAt_setStatus_self _ _ _ hkst
        · intro j hj
          simp only [pstate_buf]
          exact statusAt_setStatus_other _ _ hj
  | staleRelease k hown =>
      obtain ⟨hrd, a0, ha01, ha02, ha03⟩ := hinv.staleO_st k hown
      have hkst : k < s.buf.locStatus.length :=
        statusAt_ne_default_lt (by rw [hrd]; intro h; cases h)
      refine ⟨?_, fun h => Label.noConfusion h, fun h => Label.noConfusion h, fun h => Label.noConfusion h,
        fun j => statusAt_init R C j⟩
      intro j hne
      simp only [pstate_buf] at hne ⊢
      by_cases hjk : j = k
      · subst hjk
        rw [hrd, statusAt_setStatus_self _ _ _ hkst]
        exact Or.inr (Or.inr (Or.inr (Or.inr ⟨rfl, rfl⟩)))
      · exfalso
        apply hne
        rw [statusAt_setStatus_other _ _ hjk]
  | prodRelease k hown =>
      obtain ⟨hwr, a0, ha01, ha02, ha03⟩ := hinv.prodO_st k hown
      have hkR : k < R := by
        rw [← ha03]
        exact ringLoc_lt _ hR
      have heff : SetLocReadyForCons s.buf k = setStatus s.buf k Status.READY_FOR_READ := by
        unfold SetLocReadyForCons
        rw [hinv.rows_eq, Nat.mod_eq_of_lt hkR]
      have hkst : k < s.buf.locStatus.length :=
        statusAt_ne_default_lt (by rw [hwr]; intro h; cases h)
      refine ⟨?_, fun h => Label.noConfusion h, fun h => Label.noConfusion h, fun h => Label.noConfusion h,
        fun j => statusAt_init R C j⟩
      intro j hne
      simp only [pstate_buf] at hne ⊢
      rw [heff] at hne ⊢
      by_cases hjk : j = k
      · subst hjk
        rw [hwr, statusAt_setStatus_self _ _ _ hkst]
        exact Or.inr (Or.inl ⟨rfl, rfl⟩)
      · exfalso
        apply hne
        rw [statusAt_setStatus_other _ _ hjk]
  | consRelease k hown =>
      obtain ⟨hrd, hkR⟩ := hinv.consO_st k hown
      have heff : SetLocReadyForProd s.buf k = setStatus s.buf k Status.READY_FOR_WRITE := by
        unfold SetLocReadyForProd
        rw [hinv.rows_eq, Nat.mod_eq_of_lt hkR]
      have hkst : k < s.buf.locStatus.length :=
        statusAt_ne_default_lt (by rw [hrd]; intro h; cases h)
      refine ⟨?_, fun h => Label.noConfusion h, fun h => Label.noConfusion h, fun h => Label.noConfusion h,
        fun j => statusAt_init R C j⟩
      intro j hne
      simp only [pstate_buf] at hne ⊢
      rw [heff] at hne ⊢
      by_cases hjk : j = k
      · subst hjk
        rw [hrd, statusAt_setStatus_self _ _ _ hkst]
        exact Or.inr (Or.inr (Or.inr (Or.inl ⟨rfl, rfl⟩)))
      · exfalso
        apply hne
        rw [statusAt_setStatus_other _ _ hjk]
  | reset hquiet => exact absurd rfl hnr

/-- Witness for C4: the producer claim step from the start state of a
1-by-1 configuration. -/
theorem slot_fsm_transitions_witness :
    (∀ k, statusAt (startP 1 1).buf k ≠ statusAt wStep1.buf k →
      legalTransition (statusAt (startP 1 1).buf k) (statusAt wStep1.buf k)) ∧
    (Label.prodClaim = Label.prodClaim →
      statusAt (startP 1 1).buf
        (ringLoc (startP 1 1).buf.prodLoc (startP 1 1).buf.rows) =
          Status.READY_FOR_WRITE) ∧
    (Label.prodClaim = Label.consClaim →
      statusAt (startP 1 1).buf
        (ringLoc (startP 1 1).buf.consLoc (startP 1 1).buf.rows) =
          Status.READY_FOR_READ) ∧
    (Label.prodClaim = Label.staleClaim →
      ∃ k, statusAt (startP 1 1).buf k = Status.READY_FOR_READ ∧
        statusAt wStep1.buf k = Status.READING ∧
        ∀ j, j ≠ k → statusAt wStep1.buf j = statusAt (startP 1 1).buf j) ∧
    (∀ k, statusAt (startP 1 1).buf k = Status.READY_FOR_WRITE) :=
  slot_fsm_transitions 1 1 (startP 1 1) Label.prodClaim wStep1 (by decide) (by decide)
    Reach.init (PStep.prodClaim (by decide) (by decide) (by decide)) (by decide)

end Messenger
